import Mathlib

/-!
Verification of the inline-assembly macro expander in
`src/libsyntax/ext/asm.rs` (`expand_asm` and its section state machine).

The token stream handed to the expander is modelled as a `List Tok` of
lexemes; the external Cursor capabilities (`parse_expr`, `parse_str`,
`eat`, `expect`) are modelled as functions consuming a front segment of
that list, a fatal cursor failure being `none`.  An entire
sub-expression is one abstract lexeme, mirroring the spec's treatment of
the expression sub-parser as an external collaborator.

Recursive loops of the source are written with an explicit fuel argument
(structural recursion, so that every definition evaluates by `decide`);
wrapper definitions pin the fuel to `length + 1`, and fuel-irrelevance
lemmas below show the fuel never runs out, so the wrappers satisfy
exactly the recurrences of the source loops.

The run result carries, besides the produced directive and the emitted
diagnostics, three ghost observations used to state claims: how many
times the template (`asm`) variable was assigned, the sequence of
section states whose content parser was run, and whether parsing
terminated by consuming a terminating boundary token (as opposed to
end-of-input or an error).
-/

namespace AsmExpand

/-- Assembly dialect, mirroring `ast::AsmAtt` / `ast::AsmIntel`. -/
inductive Dialect
  | att
  | intel
deriving DecidableEq

/-- Modelled from the spec: the external expression sub-parser returns an
`ExpressionNode`; the only thing `expand_asm` inspects about it (via
`expr_to_string`) is whether it is a string literal, so an expression is
either a string literal with its literal style, or an opaque other
expression. -/
inductive Expr
  | lit (s : String) (style : Nat)
  | other (n : Nat)
deriving DecidableEq

/-- Lexemes of the argument token stream: the boundary tokens
`token::Colon` and `token::ModSep` (the double boundary `::`, a single
lexeme), `token::Comma`, the parenthesis delimiters, a string-literal
token, and one abstract lexeme standing for a whole sub-expression.
End-of-input (`token::Eof`) is the empty list. -/
inductive Tok
  | colon
  | modSep
  | comma
  | lparen
  | rparen
  | str (s : String) (style : Nat)
  | exprTok (e : Expr)
deriving DecidableEq

/-- A diagnostic sent to the external sink: `cx.span_err` or
`cx.span_warn` with the given message. -/
inductive Diag
  | err (msg : String)
  | warn (msg : String)
deriving DecidableEq

/-- The section state machine's states, as in the source `enum State`. -/
inductive State
  | Asm
  | Outputs
  | Inputs
  | Clobbers
  | Options
  | StateNone
deriving DecidableEq

/-- Successor of a section state, as in the source `State::next`. -/
def State.next : State → State
  | .Asm => .Outputs
  | .Outputs => .Inputs
  | .Inputs => .Clobbers
  | .Clobbers => .Options
  | .Options => .StateNone
  | .StateNone => .StateNone

/-- Position of a state in the fixed forward order (used only to state
monotonicity of the state machine). -/
def State.idx : State → Nat
  | .Asm => 0
  | .Outputs => 1
  | .Inputs => 2
  | .Clobbers => 3
  | .Options => 4
  | .StateNone => 5

/-- The recognized option keywords, as in the source `static OPTIONS`. -/
def OPTIONS : List String := ["volatile", "alignstack", "intel"]

/-! ## Cursor model -/

/-- Modelled from the spec: the Cursor's `parse_string_literal`
(`p.parse_str()`): consumes a string-literal lexeme and returns its text
and literal style; any other current lexeme is a fatal cursor failure. -/
def parse_str : List Tok → Option ((String × Nat) × List Tok)
  | Tok.str s style :: rest => some ((s, style), rest)
  | _ => none

/-- Modelled from the spec: the Cursor's `parse_expression`
(`p.parse_expr()`): consumes one whole sub-expression, which is a single
abstract lexeme here; a string literal is in particular an expression. -/
def parse_expr : List Tok → Option (Expr × List Tok)
  | Tok.str s style :: rest => some (Expr.lit s style, rest)
  | Tok.exprTok e :: rest => some (e, rest)
  | _ => none

/-- Modelled from the spec: the Cursor's `expect(Token)` (`p.expect`):
consume the given token or fail fatally. -/
def expect (t : Tok) : List Tok → Option (List Tok)
  | x :: rest => if x = t then some rest else none
  | [] => none

/-- Modelled from the spec: the Cursor's `consume_if(Comma)`
(`p.eat(&token::Comma)`): consume a comma if it is the current token. -/
def eatComma : List Tok → List Tok
  | Tok.comma :: rest => rest
  | ts => ts

/-- The loop guard shared by the Outputs, Inputs and Clobbers sections:
`p.token != Eof && p.token != Colon && p.token != ModSep`, negated. -/
def isSectionEnd : List Tok → Bool
  | [] => true
  | Tok.colon :: _ => true
  | Tok.modSep :: _ => true
  | _ => false

/-- Rust's `str::slice_shift_char`: the first character and the rest of
the string, or `none` for the empty string. -/
def sliceShiftChar (s : String) : Option (Char × String) :=
  match s.data with
  | [] => none
  | c :: rest => some (c, String.mk rest)

/-- Rust's `str::starts_with` on strings, on the character lists of the
two strings. -/
def strStartsWith (s pre : String) : Bool :=
  pre.data.isPrefixOf s.data

/-- The output-constraint inspection of the Outputs section (the `match
constraint.get().slice_shift_char()` of the source): the replacement
constraint (`Some` exactly for the `+` sugar, which becomes `=` followed
by the remainder) together with the diagnostics emitted. -/
def outputReplacement (constraint : String) : Option String × List Diag :=
  match sliceShiftChar constraint with
  | some (c, operand) =>
    if c = '=' then (none, [])
    else if c = '+' then (some ("=" ++ operand), [])
    else (none, [Diag.err "output operand constraint lacks '=' or '+'"])
  | none => (none, [Diag.err "output operand constraint lacks '=' or '+'"])

/-! ## Section content parsers

Each loop takes a fuel argument (first) so that the recursion is
structural; the unfuelled wrappers below fix the fuel at
`length + 1`, which the irrelevance lemmas show is always enough. -/

/-- The Outputs section's loop body, fuelled.  Accumulates
`(constraint, expression, read_write)` triples.  `Except.error` is a
fatal cursor failure carrying the diagnostics emitted so far. -/
def outputsLoopF : Nat → List Tok → List (String × Expr × Bool) → List Diag →
    Except (List Diag) (List (String × Expr × Bool) × List Diag × List Tok)
  | 0, _, _, ds => Except.error ds
  | fuel + 1, ts, outs, ds =>
    if isSectionEnd ts then Except.ok (outs, ds, ts)
    else
      match parse_str (if outs.length ≠ 0 then eatComma ts else ts) with
      | none => Except.error ds
      | some ((constraint, _style), ts2) =>
        match expect Tok.lparen ts2 with
        | none => Except.error ds
        | some ts3 =>
          match parse_expr ts3 with
          | none => Except.error ds
          | some (out, ts4) =>
            match expect Tok.rparen ts4 with
            | none => Except.error ds
            | some ts5 =>
              outputsLoopF fuel ts5
                (outs ++ [((outputReplacement constraint).1.getD constraint, out,
                           (outputReplacement constraint).1.isSome)])
                (ds ++ (outputReplacement constraint).2)

/-- The Outputs section's loop (source lines 75–114). -/
def outputsLoop (ts : List Tok) (outs : List (String × Expr × Bool)) (ds : List Diag) :
    Except (List Diag) (List (String × Expr × Bool) × List Diag × List Tok) :=
  outputsLoopF (ts.length + 1) ts outs ds

/-- The input-constraint check of the Inputs section (source lines
127–131): the diagnostics emitted for an input constraint, right after
it is parsed — one error if it starts with `=`, else one error if it
starts with `+`, else none. -/
def inputConstraintDiags (constraint : String) : List Diag :=
  if strStartsWith constraint "=" then [Diag.err "input operand constraint contains '='"]
  else if strStartsWith constraint "+" then [Diag.err "input operand constraint contains '+'"]
  else []

/-- The Inputs section's loop body, fuelled.  Accumulates
`(constraint, expression)` pairs; a constraint starting with `=` or `+`
gets one error diagnostic but is kept. -/
def inputsLoopF : Nat → List Tok → List (String × Expr) → List Diag →
    Except (List Diag) (List (String × Expr) × List Diag × List Tok)
  | 0, _, _, ds => Except.error ds
  | fuel + 1, ts, ins, ds =>
    if isSectionEnd ts then Except.ok (ins, ds, ts)
    else
      match parse_str (if ins.length ≠ 0 then eatComma ts else ts) with
      | none => Except.error ds
      | some ((constraint, _style), ts2) =>
        match expect Tok.lparen ts2 with
        | none => Except.error (ds ++ inputConstraintDiags constraint)
        | some ts3 =>
          match parse_expr ts3 with
          | none => Except.error (ds ++ inputConstraintDiags constraint)
          | some (inp, ts4) =>
            match expect Tok.rparen ts4 with
            | none => Except.error (ds ++ inputConstraintDiags constraint)
            | some ts5 =>
              inputsLoopF fuel ts5 (ins ++ [(constraint, inp)])
                (ds ++ inputConstraintDiags constraint)

/-- The Inputs section's loop (source lines 116–139). -/
def inputsLoop (ts : List Tok) (ins : List (String × Expr)) (ds : List Diag) :
    Except (List Diag) (List (String × Expr) × List Diag × List Tok) :=
  inputsLoopF (ts.length + 1) ts ins ds

/-- The clobber check of the Clobbers section (source lines 151–153):
one warning when the clobber string equals a recognized option keyword. -/
def clobberDiags (s : String) : List Diag :=
  if OPTIONS.any (fun opt => s = opt) then [Diag.warn "expected a clobber, found an option"]
  else []

/-- The Clobbers section's loop body, fuelled.  Accumulates the clobber
strings; a clobber equal to a recognized option keyword gets one
warning but is still recorded. -/
def clobbersLoopF : Nat → List Tok → List String → List Diag →
    Except (List Diag) (List String × List Diag × List Tok)
  | 0, _, _, ds => Except.error ds
  | fuel + 1, ts, clobs, ds =>
    if isSectionEnd ts then Except.ok (clobs, ds, ts)
    else
      match parse_str (if clobs.length ≠ 0 then eatComma ts else ts) with
      | none => Except.error ds
      | some ((s, _style), ts2) =>
        clobbersLoopF fuel ts2 (clobs ++ [s]) (ds ++ clobberDiags s)

/-- The Clobbers section's loop (source lines 140–156). -/
def clobbersLoop (ts : List Tok) (clobs : List String) (ds : List Diag) :
    Except (List Diag) (List String × List Diag × List Tok) :=
  clobbersLoopF (ts.length + 1) ts clobs ds

/-- The option flags accumulated by the Options section. -/
structure Flags where
  volatile : Bool
  alignstack : Bool
  dialect : Dialect
deriving DecidableEq

/-- The keyword comparison of the Options section (source lines
160–170): the updated flags together with the diagnostics emitted —
`"volatile"`, `"alignstack"` and `"intel"` each set their flag, any
other keyword leaves the flags alone and produces one warning. -/
def applyOptionKeyword (keyword : String) (fl : Flags) : Flags × List Diag :=
  if keyword = "volatile" then ({ fl with volatile := true }, [])
  else if keyword = "alignstack" then ({ fl with alignstack := true }, [])
  else if keyword = "intel" then ({ fl with dialect := Dialect.intel }, [])
  else (fl, [Diag.warn "unrecognized option"])

/-- The trailing-comma consumption of the Options section (source lines
172–174): `if p.token == Comma { p.eat(&Comma) }`. -/
def optionsComma (ts : List Tok) : List Tok :=
  if ts.head? = some Tok.comma then eatComma ts else ts

/-- One pass of the Options section (source lines 157–175): parse a
single string literal, compare it against the recognized keywords, then
consume a trailing comma if present. -/
def optionsPass (ts : List Tok) (fl : Flags) (ds : List Diag) :
    Except (List Diag) (Flags × List Diag × List Tok) :=
  match parse_str ts with
  | none => Except.error ds
  | some ((keyword, _style), ts1) =>
    Except.ok ((applyOptionKeyword keyword fl).1,
               ds ++ (applyOptionKeyword keyword fl).2, optionsComma ts1)

/-! ## The state machine -/

/-- The final structured directive (`ast::InlineAsm`, without the opaque
expansion identifier, which is requested from the external bookkeeping). -/
structure InlineAsm where
  asm : String
  asm_str_style : Nat
  outputs : List (String × Expr × Bool)
  inputs : List (String × Expr)
  clobbers : List String
  volatile : Bool
  alignstack : Bool
  dialect : Dialect
deriving DecidableEq

/-- The mutable accumulators of `expand_asm`, plus the ghost counter
`asmSets` recording how many times the assignment `asm = s` ran. -/
structure Acc where
  asm : String
  asm_str_style : Option Nat
  outputs : List (String × Expr × Bool)
  inputs : List (String × Expr)
  clobs : List String
  flags : Flags
  asmSets : Nat
deriving DecidableEq

/-- The accumulators' initial values (source lines 52–59). -/
def initAcc : Acc :=
  { asm := ""
    asm_str_style := none
    outputs := []
    inputs := []
    clobs := []
    flags := { volatile := false, alignstack := false, dialect := Dialect.att }
    asmSets := 0 }

/-- How a run of `expand_asm` ends: a directive; the `DummyResult` of a
non-literal template; a fatal cursor failure; the (unreachable) panic of
`asm_str_style.unwrap()` on `None`; or the (unreachable) infinite loop
of the `StateNone` state facing a non-boundary token, which the model
cuts off explicitly. -/
inductive ExpandResult
  | ok (d : InlineAsm)
  | dummy
  | fatal
  | panicked
  | diverge
deriving DecidableEq

/-- A run's outcome: its result, the diagnostics emitted in order, and
three ghost observations (template-assignment count, sequence of section
states whose content parser ran, and whether parsing ended by consuming
a terminating boundary token). -/
structure ExpandOut where
  result : ExpandResult
  diags : List Diag
  asmSets : Nat
  visits : List State
  endedByBoundary : Bool
deriving DecidableEq

/-- Building the final directive once the `'statement` loop breaks
(source lines 199–222); `asm_str_style.unwrap()` on `None` is a panic. -/
def finishDirective (acc : Acc) (ds : List Diag) (vs : List State) (b : Bool) : ExpandOut :=
  match acc.asm_str_style with
  | some style =>
    { result := ExpandResult.ok
        { asm := acc.asm
          asm_str_style := style
          outputs := acc.outputs
          inputs := acc.inputs
          clobbers := acc.clobs
          volatile := acc.flags.volatile
          alignstack := acc.flags.alignstack
          dialect := acc.flags.dialect }
      diags := ds
      asmSets := acc.asmSets
      visits := vs
      endedByBoundary := b }
  | none =>
    { result := ExpandResult.panicked
      diags := ds
      asmSets := acc.asmSets
      visits := vs
      endedByBoundary := b }

/-- Outcome of running one section's content parser: keep going with
updated accumulators, or return from `expand_asm` immediately (the
`DummyResult` path of a bad template, or a fatal cursor failure). -/
inductive SectionOut
  | ok (acc : Acc) (ds : List Diag) (ts : List Tok)
  | stop (r : ExpandResult) (acc : Acc) (ds : List Diag)

/-- Run the current section's content parser once (the `match state`
at the top of the `'statement` loop, source lines 64–177).
The Asm arm's `expr_to_string` — modelled from the spec: it yields the
text and style when the expression is a string literal, and otherwise
reports "inline assembly must be a string literal" and makes
`expand_asm` return `DummyResult::expr(sp)`. -/
def runSection (state : State) (ts : List Tok) (acc : Acc) (ds : List Diag) : SectionOut :=
  match state with
  | State.Asm =>
    match parse_expr ts with
    | none => SectionOut.stop ExpandResult.fatal acc ds
    | some (Expr.lit s style, ts1) =>
      SectionOut.ok
        { acc with asm := s, asm_str_style := some style, asmSets := acc.asmSets + 1 }
        ds ts1
    | some (Expr.other _, _) =>
      SectionOut.stop ExpandResult.dummy acc
        (ds ++ [Diag.err "inline assembly must be a string literal"])
  | State.Outputs =>
    match outputsLoop ts acc.outputs ds with
    | Except.error ds' => SectionOut.stop ExpandResult.fatal acc ds'
    | Except.ok (outs, ds', ts') => SectionOut.ok { acc with outputs := outs } ds' ts'
  | State.Inputs =>
    match inputsLoop ts acc.inputs ds with
    | Except.error ds' => SectionOut.stop ExpandResult.fatal acc ds'
    | Except.ok (ins, ds', ts') => SectionOut.ok { acc with inputs := ins } ds' ts'
  | State.Clobbers =>
    match clobbersLoop ts acc.clobs ds with
    | Except.error ds' => SectionOut.stop ExpandResult.fatal acc ds'
    | Except.ok (clobs, ds', ts') => SectionOut.ok { acc with clobs := clobs } ds' ts'
  | State.Options =>
    match optionsPass ts acc.flags ds with
    | Except.error ds' => SectionOut.stop ExpandResult.fatal acc ds'
    | Except.ok (fl, ds', ts') => SectionOut.ok { acc with flags := fl } ds' ts'
  | State.StateNone => SectionOut.ok acc ds ts

/-- Outcome of the inner boundary-consuming loop (source lines 179–196):
either break out of the `'statement` loop (`done`, with `viaBoundary`
recording whether a terminating boundary token was consumed, as opposed
to hitting end-of-input), or fall through to the next `'statement`
iteration at the given state (`cont`). -/
inductive BoundaryStep
  | done (viaBoundary : Bool) (rest : List Tok)
  | cont (st : State) (rest : List Tok)
deriving DecidableEq

/-- The inner boundary-consuming loop: a `Colon` advances one state, a
`ModSep` (the `::` lexeme) advances two; an advance that reaches
`StateNone` consumes the token and terminates parsing; end-of-input
terminates parsing; any other token falls through. -/
def boundaryLoop : State → List Tok → BoundaryStep
  | state, Tok.colon :: rest =>
    if state.next = State.StateNone then BoundaryStep.done true rest
    else boundaryLoop state.next rest
  | state, Tok.modSep :: rest =>
    if state.next.next = State.StateNone then BoundaryStep.done true rest
    else boundaryLoop state.next.next rest
  | _, [] => BoundaryStep.done false []
  | state, t :: rest => BoundaryStep.cont state (t :: rest)

/-- Record in a run's outcome that the given section state was visited
before the rest of the run. -/
def consVisit (st : State) (out : ExpandOut) : ExpandOut :=
  { out with visits := st :: out.visits }

/-- The `'statement` loop, fuelled: run the current section, then the
boundary loop, and either finish or continue at the advanced state.  A
non-boundary token while in `StateNone` would loop forever in the
source; the model returns `ExpandResult.diverge` there (the invariant
lemmas show this is unreachable from the initial state). -/
def statementLoopF : Nat → State → List Tok → Acc → List Diag → ExpandOut
  | 0, _, _, acc, ds =>
    { result := ExpandResult.diverge, diags := ds, asmSets := acc.asmSets
      visits := [], endedByBoundary := false }
  | fuel + 1, state, ts, acc, ds =>
    match runSection state ts acc ds with
    | SectionOut.stop r acc' ds' =>
      { result := r, diags := ds', asmSets := acc'.asmSets
        visits := [state], endedByBoundary := false }
    | SectionOut.ok acc' ds' ts' =>
      match boundaryLoop state ts' with
      | BoundaryStep.done b _rest => finishDirective acc' ds' [state] b
      | BoundaryStep.cont st ts'' =>
        if state = State.StateNone then
          { result := ExpandResult.diverge, diags := ds', asmSets := acc'.asmSets
            visits := [state], endedByBoundary := false }
        else
          consVisit state (statementLoopF fuel st ts'' acc' ds')

/-- The `'statement` loop (source lines 63–197). -/
def statementLoop (state : State) (ts : List Tok) (acc : Acc) (ds : List Diag) : ExpandOut :=
  statementLoopF (ts.length + 1) state ts acc ds

/-- The whole of `expand_asm` on a token stream: run the `'statement`
loop from the `Asm` state with the initial accumulators. -/
def expand_asm (tts : List Tok) : ExpandOut :=
  statementLoop State.Asm tts initAcc []

/-- Replacement of every double-boundary `::` lexeme by two consecutive
single-boundary `:` lexemes (for the boundary-equivalence claim). -/
def replaceModSep : List Tok → List Tok
  | [] => []
  | Tok.modSep :: rest => Tok.colon :: Tok.colon :: replaceModSep rest
  | t :: rest => t :: replaceModSep rest

/-- Number of occurrences of a state in a list of states. -/
def countState (s : State) : List State → Nat
  | [] => 0
  | t :: rest => (if t = s then 1 else 0) + countState s rest

/-- Whether the stream contains a string-literal lexeme with the given
text (any style). -/
def hasStrTok (s : String) : List Tok → Bool
  | [] => false
  | Tok.str s' _ :: rest => s' = s || hasStrTok s rest
  | _ :: rest => hasStrTok s rest

/-! ## Cursor lemmas -/

theorem parse_str_eq_some {ts ts' : List Tok} {s : String} {style : Nat}
    (h : parse_str ts = some ((s, style), ts')) : ts = Tok.str s style :: ts' := by
  cases ts with
  | nil => simp [parse_str] at h
  | cons t rest =>
    cases t <;> simp [parse_str] at h
    obtain ⟨⟨rfl, rfl⟩, rfl⟩ := h
    rfl

theorem parse_str_suffix {ts ts' : List Tok} {r : String × Nat}
    (h : parse_str ts = some (r, ts')) : ts' <:+ ts := by
  obtain ⟨s, style⟩ := r
  rw [parse_str_eq_some h]
  exact List.suffix_cons _ _

theorem parse_str_length {ts ts' : List Tok} {r : String × Nat}
    (h : parse_str ts = some (r, ts')) : ts'.length < ts.length := by
  obtain ⟨s, style⟩ := r
  rw [parse_str_eq_some h]
  simp

theorem parse_expr_tail {ts ts' : List Tok} {e : Expr}
    (h : parse_expr ts = some (e, ts')) : ∃ t, ts = t :: ts' := by
  cases ts with
  | nil => simp [parse_expr] at h
  | cons t rest =>
    refine ⟨t, ?_⟩
    cases t <;> simp [parse_expr] at h <;> simp [h.2]

theorem parse_expr_suffix {ts ts' : List Tok} {e : Expr}
    (h : parse_expr ts = some (e, ts')) : ts' <:+ ts := by
  obtain ⟨t, rfl⟩ := parse_expr_tail h
  exact List.suffix_cons _ _

theorem parse_expr_length {ts ts' : List Tok} {e : Expr}
    (h : parse_expr ts = some (e, ts')) : ts'.length < ts.length := by
  obtain ⟨t, rfl⟩ := parse_expr_tail h
  simp

theorem expect_eq_some {t : Tok} {ts ts' : List Tok}
    (h : expect t ts = some ts') : ts = t :: ts' := by
  cases ts with
  | nil => simp [expect] at h
  | cons x rest =>
    simp only [expect] at h
    split at h
    · obtain rfl := Option.some.inj h
      simp [*]
    · exact absurd h (by simp)

theorem expect_suffix {t : Tok} {ts ts' : List Tok}
    (h : expect t ts = some ts') : ts' <:+ ts := by
  rw [expect_eq_some h]
  exact List.suffix_cons _ _

theorem expect_length {t : Tok} {ts ts' : List Tok}
    (h : expect t ts = some ts') : ts'.length < ts.length := by
  rw [expect_eq_some h]
  simp

theorem eatComma_cases (ts : List Tok) :
    eatComma ts = ts ∨ ts = Tok.comma :: eatComma ts := by
  cases ts with
  | nil => left; rfl
  | cons t rest => cases t <;> simp [eatComma]

theorem eatComma_suffix (ts : List Tok) : eatComma ts <:+ ts := by
  rcases eatComma_cases ts with h | h
  · rw [h]
  · conv_rhs => rw [h]
    exact List.suffix_cons _ _

theorem eatComma_length (ts : List Tok) : (eatComma ts).length ≤ ts.length :=
  (eatComma_suffix ts).length_le

theorem ifEat_suffix (P : Prop) [Decidable P] (ts : List Tok) :
    (if P then eatComma ts else ts) <:+ ts := by
  split
  · exact eatComma_suffix ts
  · exact List.suffix_refl ts

theorem ifEat_length (P : Prop) [Decidable P] (ts : List Tok) :
    (if P then eatComma ts else ts).length ≤ ts.length :=
  (ifEat_suffix P ts).length_le

/-! ## Outputs-loop lemmas -/

theorem outputsLoopF_ok : ∀ {fuel : Nat} {ts outs ds outs' ds' ts'},
    outputsLoopF fuel ts outs ds = Except.ok (outs', ds', ts') →
    ts' <:+ ts ∧ isSectionEnd ts' = true := by
  intro fuel
  induction fuel with
  | zero => intro ts outs ds outs' ds' ts' h; simp [outputsLoopF] at h
  | succ n ih =>
    intro ts outs ds outs' ds' ts' h
    rw [outputsLoopF] at h
    by_cases hse : isSectionEnd ts = true
    · rw [if_pos hse] at h
      obtain ⟨rfl, rfl, rfl⟩ : outs = outs' ∧ ds = ds' ∧ ts = ts' := by simpa using h
      exact ⟨List.suffix_refl ts, hse⟩
    · rw [if_neg hse] at h
      have hts1 : (if outs.length ≠ 0 then eatComma ts else ts) <:+ ts := ifEat_suffix _ ts
      generalize (if outs.length ≠ 0 then eatComma ts else ts) = ts1 at h hts1
      split at h
      · exact absurd h (by simp)
      · rename_i constraint _style ts2 hps
        split at h
        · exact absurd h (by simp)
        · rename_i ts3 hlp
          split at h
          · exact absurd h (by simp)
          · rename_i out ts4 hpe
            split at h
            · exact absurd h (by simp)
            · rename_i ts5 hrp
              have h5 : ts5 <:+ ts :=
                ((expect_suffix hrp).trans <| (parse_expr_suffix hpe).trans <|
                  (expect_suffix hlp).trans <| parse_str_suffix hps).trans hts1
              obtain ⟨h1, h2⟩ := ih h
              exact ⟨h1.trans h5, h2⟩

theorem outputsLoopF_ok_length {fuel : Nat} {ts outs ds outs' ds' ts'}
    (h : outputsLoopF fuel ts outs ds = Except.ok (outs', ds', ts')) :
    ts'.length ≤ ts.length :=
  (outputsLoopF_ok h).1.length_le

theorem outputsLoopF_irrel : ∀ {m : Nat} {n ts outs ds},
    ts.length < m → ts.length < n →
    outputsLoopF m ts outs ds = outputsLoopF n ts outs ds := by
  intro m
  induction m with
  | zero => intro n ts outs ds hm _; exact absurd hm (by omega)
  | succ m' ih =>
    intro n ts outs ds hm hn
    obtain ⟨n', rfl⟩ : ∃ n', n = n' + 1 := ⟨n - 1, by omega⟩
    rw [outputsLoopF, outputsLoopF]
    by_cases hse : isSectionEnd ts = true
    · rw [if_pos hse, if_pos hse]
    · rw [if_neg hse, if_neg hse]
      have hts1 : (if outs.length ≠ 0 then eatComma ts else ts).length ≤ ts.length :=
        ifEat_length _ ts
      generalize (if outs.length ≠ 0 then eatComma ts else ts) = ts1 at hts1 ⊢
      split
      · rfl
      · rename_i constraint _style ts2 hps
        split
        · rfl
        · rename_i ts3 hlp
          split
          · rfl
          · rename_i out ts4 hpe
            split
            · rfl
            · rename_i ts5 hrp
              have l1 := parse_str_length hps
              have l2 := expect_length hlp
              have l3 := parse_expr_length hpe
              have l4 := expect_length hrp
              exact ih (by omega) (by omega)

/-! ## Inputs-loop lemmas -/

theorem inputsLoopF_ok : ∀ {fuel : Nat} {ts ins ds ins' ds' ts'},
    inputsLoopF fuel ts ins ds = Except.ok (ins', ds', ts') →
    ts' <:+ ts ∧ isSectionEnd ts' = true := by
  intro fuel
  induction fuel with
  | zero => intro ts ins ds ins' ds' ts' h; simp [inputsLoopF] at h
  | succ n ih =>
    intro ts ins ds ins' ds' ts' h
    rw [inputsLoopF] at h
    by_cases hse : isSectionEnd ts = true
    · rw [if_pos hse] at h
      obtain ⟨rfl, rfl, rfl⟩ : ins = ins' ∧ ds = ds' ∧ ts = ts' := by simpa using h
      exact ⟨List.suffix_refl ts, hse⟩
    · rw [if_neg hse] at h
      have hts1 : (if ins.length ≠ 0 then eatComma ts else ts) <:+ ts := ifEat_suffix _ ts
      generalize (if ins.length ≠ 0 then eatComma ts else ts) = ts1 at h hts1
      split at h
      · exact absurd h (by simp)
      · rename_i constraint _style ts2 hps
        split at h
        · exact absurd h (by simp)
        · rename_i ts3 hlp
          split at h
          · exact absurd h (by simp)
          · rename_i inp ts4 hpe
            split at h
            · exact absurd h (by simp)
            · rename_i ts5 hrp
              have h5 : ts5 <:+ ts :=
                ((expect_suffix hrp).trans <| (parse_expr_suffix hpe).trans <|
                  (expect_suffix hlp).trans <| parse_str_suffix hps).trans hts1
              obtain ⟨h1, h2⟩ := ih h
              exact ⟨h1.trans h5, h2⟩

theorem inputsLoopF_irrel : ∀ {m : Nat} {n ts ins ds},
    ts.length < m → ts.length < n →
    inputsLoopF m ts ins ds = inputsLoopF n ts ins ds := by
  intro m
  induction m with
  | zero => intro n ts ins ds hm _; exact absurd hm (by omega)
  | succ m' ih =>
    intro n ts ins ds hm hn
    obtain ⟨n', rfl⟩ : ∃ n', n = n' + 1 := ⟨n - 1, by omega⟩
    rw [inputsLoopF, inputsLoopF]
    by_cases hse : isSectionEnd ts = true
    · rw [if_pos hse, if_pos hse]
    · rw [if_neg hse, if_neg hse]
      have hts1 : (if ins.length ≠ 0 then eatComma ts else ts).length ≤ ts.length :=
        ifEat_length _ ts
      generalize (if ins.length ≠ 0 then eatComma ts else ts) = ts1 at hts1 ⊢
      split
      · rfl
      · rename_i constraint _style ts2 hps
        split
        · rfl
        · rename_i ts3 hlp
          split
          · rfl
          · rename_i inp ts4 hpe
            split
            · rfl
            · rename_i ts5 hrp
              have l1 := parse_str_length hps
              have l2 := expect_length hlp
              have l3 := parse_expr_length hpe
              have l4 := expect_length hrp
              exact ih (by omega) (by omega)

/-! ## Clobbers-loop lemmas -/

theorem clobbersLoopF_ok : ∀ {fuel : Nat} {ts clobs ds clobs' ds' ts'},
    clobbersLoopF fuel ts clobs ds = Except.ok (clobs', ds', ts') →
    ts' <:+ ts ∧ isSectionEnd ts' = true := by
  intro fuel
  induction fuel with
  | zero => intro ts clobs ds clobs' ds' ts' h; simp [clobbersLoopF] at h
  | succ n ih =>
    intro ts clobs ds clobs' ds' ts' h
    rw [clobbersLoopF] at h
    by_cases hse : isSectionEnd ts = true
    · rw [if_pos hse] at h
      obtain ⟨rfl, rfl, rfl⟩ : clobs = clobs' ∧ ds = ds' ∧ ts = ts' := by simpa using h
      exact ⟨List.suffix_refl ts, hse⟩
    · rw [if_neg hse] at h
      have hts1 : (if clobs.length ≠ 0 then eatComma ts else ts) <:+ ts := ifEat_suffix _ ts
      generalize (if clobs.length ≠ 0 then eatComma ts else ts) = ts1 at h hts1
      split at h
      · exact absurd h (by simp)
      · rename_i s _style ts2 hps
        have h2 : ts2 <:+ ts := (parse_str_suffix hps).trans hts1
        obtain ⟨h1, hend⟩ := ih h
        exact ⟨h1.trans h2, hend⟩

theorem clobbersLoopF_irrel : ∀ {m : Nat} {n ts clobs ds},
    ts.length < m → ts.length < n →
    clobbersLoopF m ts clobs ds = clobbersLoopF n ts clobs ds := by
  intro m
  induction m with
  | zero => intro n ts clobs ds hm _; exact absurd hm (by omega)
  | succ m' ih =>
    intro n ts clobs ds hm hn
    obtain ⟨n', rfl⟩ : ∃ n', n = n' + 1 := ⟨n - 1, by omega⟩
    rw [clobbersLoopF, clobbersLoopF]
    by_cases hse : isSectionEnd ts = true
    · rw [if_pos hse, if_pos hse]
    · rw [if_neg hse, if_neg hse]
      have hts1 : (if clobs.length ≠ 0 then eatComma ts else ts).length ≤ ts.length :=
        ifEat_length _ ts
      generalize (if clobs.length ≠ 0 then eatComma ts else ts) = ts1 at hts1 ⊢
      split
      · rfl
      · rename_i s _style ts2 hps
        have l1 := parse_str_length hps
        exact ih (by omega) (by omega)

/-! ## Options-pass lemmas -/

theorem optionsComma_suffix (ts : List Tok) : optionsComma ts <:+ ts := by
  rw [optionsComma]
  exact ifEat_suffix _ ts

theorem optionsPass_ok {ts fl ds fl' ds' ts'}
    (h : optionsPass ts fl ds = Except.ok (fl', ds', ts')) :
    ∃ keyword style rest, ts = Tok.str keyword style :: rest ∧
      fl' = (applyOptionKeyword keyword fl).1 ∧
      ds' = ds ++ (applyOptionKeyword keyword fl).2 ∧
      ts' = optionsComma rest := by
  rw [optionsPass] at h
  split at h
  · exact absurd h (by simp)
  · rename_i keyword _style ts1 hps
    obtain ⟨rfl, rfl, rfl⟩ : (applyOptionKeyword keyword fl).1 = fl' ∧
        ds ++ (applyOptionKeyword keyword fl).2 = ds' ∧ optionsComma ts1 = ts' := by
      simpa using h
    exact ⟨keyword, _style, ts1, parse_str_eq_some hps, rfl, rfl, rfl⟩

theorem optionsPass_ok_suffix {ts fl ds fl' ds' ts'}
    (h : optionsPass ts fl ds = Except.ok (fl', ds', ts')) :
    ts' <:+ ts ∧ ts'.length < ts.length := by
  obtain ⟨keyword, style, rest, rfl, _, _, rfl⟩ := optionsPass_ok h
  constructor
  · exact (optionsComma_suffix rest).trans (List.suffix_cons _ _)
  · have := (optionsComma_suffix rest).length_le
    simp only [List.length_cons]
    omega

/-! ## Boundary-loop lemmas -/

theorem idx_lt_next {st : State} (h : st.next ≠ State.StateNone) :
    st.idx < st.next.idx := by
  cases st <;> simp_all [State.next, State.idx]

theorem idx_lt_next2 {st : State} (h : st.next.next ≠ State.StateNone) :
    st.idx < st.next.next.idx := by
  cases st <;> simp_all [State.next, State.idx]

/-- Every fall-through of the boundary loop either consumed nothing (the
current token is neither a boundary nor end-of-input) or consumed at
least one boundary and advanced the state strictly forward, never
getting to `StateNone`. -/
theorem boundaryLoop_cont_cases : ∀ {st : State} {ts : List Tok} {st' ts'},
    boundaryLoop st ts = BoundaryStep.cont st' ts' →
    (st' = st ∧ ts' = ts ∧ isSectionEnd ts = false) ∨
    (st' ≠ State.StateNone ∧ st.idx < st'.idx ∧ ts'.length < ts.length ∧ ts' <:+ ts) := by
  intro st ts
  induction ts generalizing st with
  | nil => intro st' ts' h; simp [boundaryLoop] at h
  | cons t rest ih =>
    intro st' ts' h
    cases t with
    | colon =>
      rw [boundaryLoop] at h
      by_cases hn : State.next st = State.StateNone
      · rw [if_pos hn] at h; exact absurd h (by simp)
      · rw [if_neg hn] at h
        rcases ih h with ⟨rfl, rfl, hsec⟩ | ⟨h1, h2, h3, h4⟩
        · exact Or.inr ⟨hn, idx_lt_next hn, by simp, List.suffix_cons _ _⟩
        · refine Or.inr ⟨h1, lt_trans (idx_lt_next hn) h2, ?_, h4.trans (List.suffix_cons _ _)⟩
          simp only [List.length_cons]
          omega
    | modSep =>
      rw [boundaryLoop] at h
      by_cases hn : (State.next (State.next st)) = State.StateNone
      · rw [if_pos hn] at h; exact absurd h (by simp)
      · rw [if_neg hn] at h
        rcases ih h with ⟨rfl, rfl, hsec⟩ | ⟨h1, h2, h3, h4⟩
        · exact Or.inr ⟨hn, idx_lt_next2 hn, by simp, List.suffix_cons _ _⟩
        · refine Or.inr ⟨h1, lt_trans (idx_lt_next2 hn) h2, ?_, h4.trans (List.suffix_cons _ _)⟩
          simp only [List.length_cons]
          omega
    | comma =>
      simp only [boundaryLoop] at h
      obtain ⟨rfl, rfl⟩ : st = st' ∧ Tok.comma :: rest = ts' := by simpa using h
      exact Or.inl ⟨rfl, rfl, rfl⟩
    | lparen =>
      simp only [boundaryLoop] at h
      obtain ⟨rfl, rfl⟩ : st = st' ∧ Tok.lparen :: rest = ts' := by simpa using h
      exact Or.inl ⟨rfl, rfl, rfl⟩
    | rparen =>
      simp only [boundaryLoop] at h
      obtain ⟨rfl, rfl⟩ : st = st' ∧ Tok.rparen :: rest = ts' := by simpa using h
      exact Or.inl ⟨rfl, rfl, rfl⟩
    | str s style =>
      simp only [boundaryLoop] at h
      obtain ⟨rfl, rfl⟩ : st = st' ∧ Tok.str s style :: rest = ts' := by simpa using h
      exact Or.inl ⟨rfl, rfl, rfl⟩
    | exprTok e =>
      simp only [boundaryLoop] at h
      obtain ⟨rfl, rfl⟩ : st = st' ∧ Tok.exprTok e :: rest = ts' := by simpa using h
      exact Or.inl ⟨rfl, rfl, rfl⟩

theorem boundaryLoop_cont_suffix {st : State} {ts : List Tok} {st' ts'}
    (h : boundaryLoop st ts = BoundaryStep.cont st' ts') : ts' <:+ ts := by
  rcases boundaryLoop_cont_cases h with ⟨_, rfl, _⟩ | ⟨_, _, _, h4⟩
  · exact List.suffix_refl _
  · exact h4

theorem boundaryLoop_cont_ne {st : State} {ts : List Tok} {st' ts'}
    (h : boundaryLoop st ts = BoundaryStep.cont st' ts') (hst : st ≠ State.StateNone) :
    st' ≠ State.StateNone := by
  rcases boundaryLoop_cont_cases h with ⟨rfl, _, _⟩ | ⟨h1, _, _, _⟩
  · exact hst
  · exact h1

/-! ## Section-runner lemmas -/

theorem runSection_ok {st : State} {ts : List Tok} {acc ds acc' ds' ts'}
    (h : runSection st ts acc ds = SectionOut.ok acc' ds' ts') :
    ts' <:+ ts ∧
      (ts'.length < ts.length ∨ isSectionEnd ts' = true ∨ st = State.StateNone) := by
  cases st with
  | Asm =>
    rw [runSection] at h
    split at h
    · exact absurd h (by simp)
    · rename_i s style ts1 hpe
      obtain ⟨_, _, rfl⟩ : _ ∧ ds = ds' ∧ ts1 = ts' := by
        simpa using h
      exact ⟨parse_expr_suffix hpe, Or.inl (parse_expr_length hpe)⟩
    · exact absurd h (by simp)
  | Outputs =>
    rw [runSection] at h
    split at h
    · exact absurd h (by simp)
    · rename_i outs ds1 ts1 hol
      obtain ⟨_, rfl, rfl⟩ : _ ∧ ds1 = ds' ∧ ts1 = ts' := by simpa using h
      obtain ⟨h1, h2⟩ := outputsLoopF_ok hol
      exact ⟨h1, Or.inr (Or.inl h2)⟩
  | Inputs =>
    rw [runSection] at h
    split at h
    · exact absurd h (by simp)
    · rename_i ins ds1 ts1 hol
      obtain ⟨_, rfl, rfl⟩ : _ ∧ ds1 = ds' ∧ ts1 = ts' := by simpa using h
      obtain ⟨h1, h2⟩ := inputsLoopF_ok hol
      exact ⟨h1, Or.inr (Or.inl h2)⟩
  | Clobbers =>
    rw [runSection] at h
    split at h
    · exact absurd h (by simp)
    · rename_i clobs ds1 ts1 hol
      obtain ⟨_, rfl, rfl⟩ : _ ∧ ds1 = ds' ∧ ts1 = ts' := by simpa using h
      obtain ⟨h1, h2⟩ := clobbersLoopF_ok hol
      exact ⟨h1, Or.inr (Or.inl h2)⟩
  | Options =>
    rw [runSection] at h
    split at h
    · exact absurd h (by simp)
    · rename_i fl ds1 ts1 hop
      obtain ⟨_, rfl, rfl⟩ : _ ∧ ds1 = ds' ∧ ts1 = ts' := by simpa using h
      obtain ⟨h1, h2⟩ := optionsPass_ok_suffix hop
      exact ⟨h1, Or.inl h2⟩
  | StateNone =>
    rw [runSection] at h
    obtain ⟨rfl, rfl, rfl⟩ : acc = acc' ∧ ds = ds' ∧ ts = ts' := by simpa using h
    exact ⟨List.suffix_refl ts, Or.inr (Or.inr rfl)⟩

/-- One full `'statement` iteration that falls through to another
iteration strictly consumes tokens (given the state is not the terminal
one) and never moves to the terminal state. -/
theorem progress {st : State} {ts : List Tok} {acc ds acc' ds' ts' st2 ts''}
    (hrs : runSection st ts acc ds = SectionOut.ok acc' ds' ts')
    (hb : boundaryLoop st ts' = BoundaryStep.cont st2 ts'')
    (hst : st ≠ State.StateNone) :
    ts'' <:+ ts ∧ ts''.length < ts.length ∧ st2 ≠ State.StateNone := by
  obtain ⟨hsuf, hdisj⟩ := runSection_ok hrs
  rcases boundaryLoop_cont_cases hb with ⟨rfl, rfl, hsec⟩ | ⟨h1, _, h3, h4⟩
  · rcases hdisj with h | h | h
    · exact ⟨hsuf, h, hst⟩
    · rw [h] at hsec; cases hsec
    · exact absurd h hst
  · exact ⟨h4.trans hsuf, lt_of_lt_of_le h3 hsuf.length_le, h1⟩

/-! ## Statement-loop lemmas -/

theorem statementLoopF_irrel : ∀ {m : Nat} {n st ts acc ds},
    ts.length < m → ts.length < n →
    statementLoopF m st ts acc ds = statementLoopF n st ts acc ds := by
  intro m
  induction m with
  | zero => intro n st ts acc ds hm _; exact absurd hm (by omega)
  | succ m' ih =>
    intro n st ts acc ds hm hn
    obtain ⟨n', rfl⟩ : ∃ n', n = n' + 1 := ⟨n - 1, by omega⟩
    rw [statementLoopF, statementLoopF]
    split
    · rfl
    · rename_i acc' ds' ts' hrs
      split
      · rfl
      · rename_i st2 ts'' hb
        by_cases hst : st = State.StateNone
        · rw [if_pos hst, if_pos hst]
        · rw [if_neg hst, if_neg hst]
          obtain ⟨_, hlt, _⟩ := progress hrs hb hst
          exact congrArg (consVisit st) (ih (by omega) (by omega))

/-! ## Constraint-normalizer lemmas -/

theorem sliceShiftChar_eq (t : String) : sliceShiftChar ("=" ++ t) = some ('=', t) := rfl

theorem sliceShiftChar_plus (t : String) : sliceShiftChar ("+" ++ t) = some ('+', t) := rfl

theorem outputReplacement_eq (t : String) : outputReplacement ("=" ++ t) = (none, []) := rfl

theorem outputReplacement_plus (t : String) :
    outputReplacement ("+" ++ t) = (some ("=" ++ t), []) := rfl

theorem sliceShiftChar_some {c : String} {ch : Char} {operand : String}
    (h : sliceShiftChar c = some (ch, operand)) : c.data = ch :: operand.data := by
  rw [sliceShiftChar] at h
  cases hd : c.data with
  | nil => rw [hd] at h; simp at h
  | cons c' r =>
    rw [hd] at h
    obtain ⟨rfl, rfl⟩ : c' = ch ∧ String.mk r = operand := by simpa using h
    rfl

theorem outputReplacement_other {c : String}
    (h1 : c.data.head? ≠ some '=') (h2 : c.data.head? ≠ some '+') :
    outputReplacement c = (none, [Diag.err "output operand constraint lacks '=' or '+'"]) := by
  cases hsc : sliceShiftChar c with
  | none => simp only [outputReplacement, hsc]
  | some p =>
    obtain ⟨ch, operand⟩ := p
    have hd := sliceShiftChar_some hsc
    rw [hd] at h1 h2
    simp only [List.head?, ne_eq, Option.some.injEq] at h1 h2
    simp only [outputReplacement, hsc, if_neg h1, if_neg h2]

/-! ## Single-operand step lemmas for the section loops -/

theorem outputsLoop_step (c : String) (sty : Nat) (e : Expr) (rest : List Tok)
    (outs : List (String × Expr × Bool)) (ds : List Diag) :
    outputsLoop (Tok.str c sty :: Tok.lparen :: Tok.exprTok e :: Tok.rparen :: rest) outs ds =
      outputsLoop rest
        (outs ++ [((outputReplacement c).1.getD c, e, (outputReplacement c).1.isSome)])
        (ds ++ (outputReplacement c).2) := by
  rw [outputsLoop, outputsLoop, outputsLoopF]
  have h1 : isSectionEnd (Tok.str c sty :: Tok.lparen :: Tok.exprTok e :: Tok.rparen :: rest)
      = false := rfl
  rw [h1, if_neg (by simp)]
  have h2 : eatComma (Tok.str c sty :: Tok.lparen :: Tok.exprTok e :: Tok.rparen :: rest)
      = Tok.str c sty :: Tok.lparen :: Tok.exprTok e :: Tok.rparen :: rest := rfl
  rw [h2, ite_self]
  exact outputsLoopF_irrel (by simp only [List.length_cons]; omega) (by omega)

theorem inputsLoop_step (c : String) (sty : Nat) (e : Expr) (rest : List Tok)
    (ins : List (String × Expr)) (ds : List Diag) :
    inputsLoop (Tok.str c sty :: Tok.lparen :: Tok.exprTok e :: Tok.rparen :: rest) ins ds =
      inputsLoop rest (ins ++ [(c, e)]) (ds ++ inputConstraintDiags c) := by
  rw [inputsLoop, inputsLoop, inputsLoopF]
  have h1 : isSectionEnd (Tok.str c sty :: Tok.lparen :: Tok.exprTok e :: Tok.rparen :: rest)
      = false := rfl
  rw [h1, if_neg (by simp)]
  have h2 : eatComma (Tok.str c sty :: Tok.lparen :: Tok.exprTok e :: Tok.rparen :: rest)
      = Tok.str c sty :: Tok.lparen :: Tok.exprTok e :: Tok.rparen :: rest := rfl
  rw [h2, ite_self]
  exact inputsLoopF_irrel (by simp only [List.length_cons]; omega) (by omega)

/-! ## Claims C3–C6: constraint handling of the operand lists -/

/-- Claim C3 (confirmed): an output operand whose constraint begins with
`=` is stored as-is with `read_write = false`; one whose constraint
begins with `+` is stored with `=` substituted for the leading `+`
(remainder unchanged) and `read_write = true`; in particular `"=r"` and
`"+r"` both store `"=r"`, and only `"+r"` sets `read_write`. -/
theorem claim_C3 :
    (∀ (t : String) (sty : Nat) (e : Expr) (rest : List Tok) outs ds,
      outputsLoop (Tok.str ("=" ++ t) sty :: Tok.lparen :: Tok.exprTok e ::
          Tok.rparen :: rest) outs ds =
        outputsLoop rest (outs ++ [("=" ++ t, e, false)]) ds) ∧
    (∀ (t : String) (sty : Nat) (e : Expr) (rest : List Tok) outs ds,
      outputsLoop (Tok.str ("+" ++ t) sty :: Tok.lparen :: Tok.exprTok e ::
          Tok.rparen :: rest) outs ds =
        outputsLoop rest (outs ++ [("=" ++ t, e, true)]) ds) ∧
    outputsLoop [Tok.str "=r" 0, Tok.lparen, Tok.exprTok (Expr.other 0), Tok.rparen] [] []
      = Except.ok ([("=r", Expr.other 0, false)], [], []) ∧
    outputsLoop [Tok.str "+r" 0, Tok.lparen, Tok.exprTok (Expr.other 0), Tok.rparen] [] []
      = Except.ok ([("=r", Expr.other 0, true)], [], []) := by
  refine ⟨?_, ?_, rfl, rfl⟩
  · intro t sty e rest outs ds
    rw [outputsLoop_step, outputReplacement_eq]
    simp
  · intro t sty e rest outs ds
    rw [outputsLoop_step, outputReplacement_plus]
    simp

/-- Claim C4, amended (the original claim fails on constraints that
begin with neither `=` nor `+`, which are stored unchanged): every
stored output operand whose source constraint begins with `=` or `+`
carries a stored constraint beginning with `=`. -/
theorem claim_C4 :
    (∀ (t : String) (sty : Nat) (e : Expr) (rest : List Tok) outs ds,
      ∃ stored rw,
        outputsLoop (Tok.str ("=" ++ t) sty :: Tok.lparen :: Tok.exprTok e ::
            Tok.rparen :: rest) outs ds =
          outputsLoop rest (outs ++ [(stored, e, rw)]) ds ∧
        stored.data.head? = some '=') ∧
    (∀ (t : String) (sty : Nat) (e : Expr) (rest : List Tok) outs ds,
      ∃ stored rw,
        outputsLoop (Tok.str ("+" ++ t) sty :: Tok.lparen :: Tok.exprTok e ::
            Tok.rparen :: rest) outs ds =
          outputsLoop rest (outs ++ [(stored, e, rw)]) ds ∧
        stored.data.head? = some '=') := by
  constructor
  · intro t sty e rest outs ds
    exact ⟨"=" ++ t, false, claim_C3.1 t sty e rest outs ds, rfl⟩
  · intro t sty e rest outs ds
    exact ⟨"=" ++ t, true, claim_C3.2.1 t sty e rest outs ds, rfl⟩

/-- Claim C4 counterexample: an output operand written with constraint
`"r"` is stored with its original constraint `"r"`, which does not begin
with `=`, while a directive is still produced. -/
theorem claim_C4_counterexample :
    (expand_asm [Tok.str "asm" 0, Tok.colon, Tok.str "r" 0, Tok.lparen,
        Tok.exprTok (Expr.other 0), Tok.rparen]).result =
      ExpandResult.ok
        { asm := "asm", asm_str_style := 0
          outputs := [("r", Expr.other 0, false)], inputs := [], clobbers := []
          volatile := false, alignstack := false, dialect := Dialect.att } ∧
    ("r" : String).data.head? ≠ some '=' := by decide

/-- Claim C5 (confirmed): an output operand whose constraint begins with
neither `=` nor `+` produces exactly one constraint error, parsing
continues, and the operand is still appended with its original
constraint text and `read_write = false`. -/
theorem claim_C5 (c : String) (sty : Nat) (e : Expr) (rest : List Tok)
    (outs : List (String × Expr × Bool)) (ds : List Diag)
    (h1 : c.data.head? ≠ some '=') (h2 : c.data.head? ≠ some '+') :
    outputsLoop (Tok.str c sty :: Tok.lparen :: Tok.exprTok e :: Tok.rparen :: rest) outs ds =
      outputsLoop rest (outs ++ [(c, e, false)])
        (ds ++ [Diag.err "output operand constraint lacks '=' or '+'"]) := by
  rw [outputsLoop_step, outputReplacement_other h1 h2]
  simp

theorem claim_C5_witness :
    outputsLoop [Tok.str "r" 0, Tok.lparen, Tok.exprTok (Expr.other 0), Tok.rparen] [] [] =
      outputsLoop [] [("r", Expr.other 0, false)]
        [Diag.err "output operand constraint lacks '=' or '+'"] := by
  have h := claim_C5 "r" 0 (Expr.other 0) [] [] [] (by decide) (by decide)
  simpa using h

/-- Claim C6 (confirmed): an input operand whose constraint begins with
`=` or `+` produces exactly one constraint error (even when the
constraint contains both characters), parsing continues, and the operand
is still appended with its constraint and expression unchanged. -/
theorem claim_C6 :
    (∀ (c : String) (sty : Nat) (e : Expr) (rest : List Tok) ins ds,
      strStartsWith c "=" = true ∨ strStartsWith c "+" = true →
      ∃ d, (d = Diag.err "input operand constraint contains '='" ∨
            d = Diag.err "input operand constraint contains '+'") ∧
        inputsLoop (Tok.str c sty :: Tok.lparen :: Tok.exprTok e ::
            Tok.rparen :: rest) ins ds =
          inputsLoop rest (ins ++ [(c, e)]) (ds ++ [d])) ∧
    inputsLoop [Tok.str "=+r" 0, Tok.lparen, Tok.exprTok (Expr.other 0), Tok.rparen] [] []
      = Except.ok ([("=+r", Expr.other 0)],
          [Diag.err "input operand constraint contains '='"], []) ∧
    inputsLoop [Tok.str "+=r" 0, Tok.lparen, Tok.exprTok (Expr.other 0), Tok.rparen] [] []
      = Except.ok ([("+=r", Expr.other 0)],
          [Diag.err "input operand constraint contains '+'"], []) := by
  refine ⟨?_, rfl, rfl⟩
  intro c sty e rest ins ds h
  rw [inputsLoop_step]
  by_cases h0 : strStartsWith c "=" = true
  · exact ⟨_, Or.inl rfl, by rw [inputConstraintDiags, if_pos h0]⟩
  · rcases h with h | h
    · exact absurd h h0
    · exact ⟨_, Or.inr rfl, by rw [inputConstraintDiags, if_neg h0, if_pos h]⟩

theorem claim_C6_witness :
    ∃ d, (d = Diag.err "input operand constraint contains '='" ∨
          d = Diag.err "input operand constraint contains '+'") ∧
      inputsLoop [Tok.str "=r" 0, Tok.lparen, Tok.exprTok (Expr.other 0), Tok.rparen] [] [] =
        inputsLoop [] [("=r", Expr.other 0)] ([] ++ [d]) :=
  claim_C6.1 "=r" 0 (Expr.other 0) [] [] [] (Or.inl (by decide))

/-! ## Option-keyword lemmas -/

theorem optionsPass_keyword (s : String) (sty : Nat) (rest : List Tok) (fl : Flags)
    (ds : List Diag) :
    optionsPass (Tok.str s sty :: rest) fl ds =
      Except.ok ((applyOptionKeyword s fl).1, ds ++ (applyOptionKeyword s fl).2,
        optionsComma rest) := rfl

theorem applyOptionKeyword_cases (kw : String) (fl : Flags) :
    (kw = "volatile" ∧ applyOptionKeyword kw fl = ({ fl with volatile := true }, [])) ∨
    (kw = "alignstack" ∧ applyOptionKeyword kw fl = ({ fl with alignstack := true }, [])) ∨
    (kw = "intel" ∧ applyOptionKeyword kw fl = ({ fl with dialect := Dialect.intel }, [])) ∨
    (kw ≠ "volatile" ∧ kw ≠ "alignstack" ∧ kw ≠ "intel" ∧
      applyOptionKeyword kw fl = (fl, [Diag.warn "unrecognized option"])) := by
  by_cases h1 : kw = "volatile"
  · subst h1; exact Or.inl ⟨rfl, rfl⟩
  · by_cases h2 : kw = "alignstack"
    · subst h2; exact Or.inr (Or.inl ⟨rfl, rfl⟩)
    · by_cases h3 : kw = "intel"
      · subst h3; exact Or.inr (Or.inr (Or.inl ⟨rfl, rfl⟩))
      · refine Or.inr (Or.inr (Or.inr ⟨h1, h2, h3, ?_⟩))
        rw [applyOptionKeyword, if_neg h1, if_neg h2, if_neg h3]

/-! ## Absence of a string token, and its preservation -/

theorem hasStrTok_cons_str {s s' : String} {style : Nat} {rest : List Tok}
    (h : hasStrTok s (Tok.str s' style :: rest) = false) :
    s' ≠ s ∧ hasStrTok s rest = false := by
  rw [hasStrTok] at h
  simpa using h

theorem hasStrTok_suffix {s : String} : ∀ {ts ts' : List Tok},
    ts' <:+ ts → hasStrTok s ts = false → hasStrTok s ts' = false := by
  intro ts ts' hsuf h
  obtain ⟨pre, rfl⟩ := hsuf
  induction pre with
  | nil => exact h
  | cons t pre ih =>
    apply ih
    cases t with
    | str s' style => exact (hasStrTok_cons_str h).2
    | colon => exact h
    | modSep => exact h
    | comma => exact h
    | lparen => exact h
    | rparen => exact h
    | exprTok e => exact h

/-! ## Further section-runner lemmas -/

theorem runSection_stop {st : State} {ts : List Tok} {acc ds r acc' ds'}
    (h : runSection st ts acc ds = SectionOut.stop r acc' ds') :
    r = ExpandResult.fatal ∨ r = ExpandResult.dummy := by
  cases st with
  | Asm =>
    rw [runSection] at h
    split at h
    · injection h with h1 _ _; exact Or.inl h1.symm
    · exact absurd h (by simp)
    · injection h with h1 _ _; exact Or.inr h1.symm
  | Outputs =>
    rw [runSection] at h
    split at h
    · injection h with h1 _ _; exact Or.inl h1.symm
    · exact absurd h (by simp)
  | Inputs =>
    rw [runSection] at h
    split at h
    · injection h with h1 _ _; exact Or.inl h1.symm
    · exact absurd h (by simp)
  | Clobbers =>
    rw [runSection] at h
    split at h
    · injection h with h1 _ _; exact Or.inl h1.symm
    · exact absurd h (by simp)
  | Options =>
    rw [runSection] at h
    split at h
    · injection h with h1 _ _; exact Or.inl h1.symm
    · exact absurd h (by simp)
  | StateNone =>
    rw [runSection] at h
    exact absurd h (by simp)

theorem runSection_ok_acc {st : State} {ts : List Tok} {acc ds acc' ds' ts'}
    (h : runSection st ts acc ds = SectionOut.ok acc' ds' ts') :
    (st ≠ State.Asm → acc'.asm = acc.asm ∧ acc'.asm_str_style = acc.asm_str_style ∧
      acc'.asmSets = acc.asmSets) ∧
    (st ≠ State.Outputs → acc'.outputs = acc.outputs) ∧
    (st ≠ State.Inputs → acc'.inputs = acc.inputs) ∧
    (st ≠ State.Clobbers → acc'.clobs = acc.clobs) ∧
    (st ≠ State.Options → acc'.flags = acc.flags) ∧
    (acc.asm_str_style.isSome = true → acc'.asm_str_style.isSome = true) ∧
    acc.asmSets ≤ acc'.asmSets ∧
    (st = State.Asm → acc'.asmSets = acc.asmSets + 1 ∧ acc'.asm_str_style.isSome = true) := by
  cases st with
  | Asm =>
    rw [runSection] at h
    split at h
    · exact absurd h (by simp)
    · rename_i s style ts1 hpe
      obtain ⟨rfl, rfl, rfl⟩ :
          { acc with asm := s, asm_str_style := some style, asmSets := acc.asmSets + 1 } = acc'
            ∧ ds = ds' ∧ ts1 = ts' := by simpa using h
      refine ⟨fun hne => absurd rfl hne, fun _ => rfl, fun _ => rfl, fun _ => rfl,
        fun _ => rfl, fun _ => rfl, by simp, fun _ => ⟨rfl, rfl⟩⟩
    · exact absurd h (by simp)
  | Outputs =>
    rw [runSection] at h
    split at h
    · exact absurd h (by simp)
    · rename_i outs ds1 ts1 hol
      obtain ⟨rfl, rfl, rfl⟩ : { acc with outputs := outs } = acc' ∧ ds1 = ds' ∧ ts1 = ts' :=
        by simpa using h
      exact ⟨fun _ => ⟨rfl, rfl, rfl⟩, fun hne => absurd rfl hne, fun _ => rfl, fun _ => rfl,
        fun _ => rfl, fun hs => hs, le_refl _, fun hc => by cases hc⟩
  | Inputs =>
    rw [runSection] at h
    split at h
    · exact absurd h (by simp)
    · rename_i ins ds1 ts1 hol
      obtain ⟨rfl, rfl, rfl⟩ : { acc with inputs := ins } = acc' ∧ ds1 = ds' ∧ ts1 = ts' :=
        by simpa using h
      exact ⟨fun _ => ⟨rfl, rfl, rfl⟩, fun _ => rfl, fun hne => absurd rfl hne, fun _ => rfl,
        fun _ => rfl, fun hs => hs, le_refl _, fun hc => by cases hc⟩
  | Clobbers =>
    rw [runSection] at h
    split at h
    · exact absurd h (by simp)
    · rename_i clobs ds1 ts1 hol
      obtain ⟨rfl, rfl, rfl⟩ : { acc with clobs := clobs } = acc' ∧ ds1 = ds' ∧ ts1 = ts' :=
        by simpa using h
      exact ⟨fun _ => ⟨rfl, rfl, rfl⟩, fun _ => rfl, fun _ => rfl, fun hne => absurd rfl hne,
        fun _ => rfl, fun hs => hs, le_refl _, fun hc => by cases hc⟩
  | Options =>
    rw [runSection] at h
    split at h
    · exact absurd h (by simp)
    · rename_i fl ds1 ts1 hop
      obtain ⟨rfl, rfl, rfl⟩ : { acc with flags := fl } = acc' ∧ ds1 = ds' ∧ ts1 = ts' :=
        by simpa using h
      exact ⟨fun _ => ⟨rfl, rfl, rfl⟩, fun _ => rfl, fun _ => rfl, fun _ => rfl,
        fun hne => absurd rfl hne, fun hs => hs, le_refl _, fun hc => by cases hc⟩
  | StateNone =>
    rw [runSection] at h
    obtain ⟨rfl, rfl, rfl⟩ : acc = acc' ∧ ds = ds' ∧ ts = ts' := by simpa using h
    exact ⟨fun _ => ⟨rfl, rfl, rfl⟩, fun _ => rfl, fun _ => rfl, fun _ => rfl,
      fun _ => rfl, fun hs => hs, le_refl _, fun hc => by cases hc⟩

theorem runSection_flags {st : State} {ts : List Tok} {acc ds acc' ds' ts'}
    (h : runSection st ts acc ds = SectionOut.ok acc' ds' ts') :
    (hasStrTok "volatile" ts = false → acc'.flags.volatile = acc.flags.volatile) ∧
    (hasStrTok "alignstack" ts = false → acc'.flags.alignstack = acc.flags.alignstack) ∧
    (hasStrTok "intel" ts = false → acc'.flags.dialect = acc.flags.dialect) := by
  by_cases hst : st = State.Options
  · subst hst
    rw [runSection] at h
    split at h
    · exact absurd h (by simp)
    · rename_i fl ds1 ts1 hop
      obtain ⟨rfl, rfl, rfl⟩ : { acc with flags := fl } = acc' ∧ ds1 = ds' ∧ ts1 = ts' :=
        by simpa using h
      obtain ⟨kw, style, rest, rfl, rfl, -, -⟩ := optionsPass_ok hop
      rcases applyOptionKeyword_cases kw acc.flags with
        ⟨rfl, hk⟩ | ⟨rfl, hk⟩ | ⟨rfl, hk⟩ | ⟨h1, h2, h3, hk⟩ <;> rw [hk]
      · exact ⟨fun hv => absurd rfl (hasStrTok_cons_str hv).1, fun _ => rfl, fun _ => rfl⟩
      · exact ⟨fun _ => rfl, fun ha => absurd rfl (hasStrTok_cons_str ha).1, fun _ => rfl⟩
      · exact ⟨fun _ => rfl, fun _ => rfl, fun hi => absurd rfl (hasStrTok_cons_str hi).1⟩
      · exact ⟨fun _ => rfl, fun _ => rfl, fun _ => rfl⟩
  · have hfl := (runSection_ok_acc h).2.2.2.2.1 hst
    rw [hfl]
    exact ⟨fun _ => rfl, fun _ => rfl, fun _ => rfl⟩

/-- Reading off the directive built by `finishDirective` when it
succeeds. -/
theorem finishDirective_ok {acc : Acc} {ds vs b d}
    (h : (finishDirective acc ds vs b).result = ExpandResult.ok d) :
    d.asm = acc.asm ∧ d.outputs = acc.outputs ∧ d.inputs = acc.inputs ∧
    d.clobbers = acc.clobs ∧ d.volatile = acc.flags.volatile ∧
    d.alignstack = acc.flags.alignstack ∧ d.dialect = acc.flags.dialect ∧
    acc.asm_str_style.isSome = true := by
  rw [finishDirective] at h
  cases hs : acc.asm_str_style with
  | some style =>
    rw [hs] at h
    obtain rfl : _ = d := by simpa using h
    simp [hs]
  | none => rw [hs] at h; exact absurd h (by simp)

/-- Option flags of a produced directive trace back to the accumulator:
if the stream contains no string-literal token with the corresponding
keyword text, the flag keeps the value it had on entry. -/
theorem statementLoopF_flags : ∀ {fuel : Nat} {st ts acc ds d},
    (statementLoopF fuel st ts acc ds).result = ExpandResult.ok d →
    (hasStrTok "volatile" ts = false → d.volatile = acc.flags.volatile) ∧
    (hasStrTok "alignstack" ts = false → d.alignstack = acc.flags.alignstack) ∧
    (hasStrTok "intel" ts = false → d.dialect = acc.flags.dialect) := by
  intro fuel
  induction fuel with
  | zero => intro st ts acc ds d h; simp [statementLoopF] at h
  | succ n ih =>
    intro st ts acc ds d h
    rw [statementLoopF] at h
    split at h
    · rename_i r acc' ds' hrs
      rcases runSection_stop hrs with rfl | rfl <;> exact absurd h (by simp)
    · rename_i acc' ds' ts' hrs
      split at h
      · rename_i b rest hb
        obtain ⟨-, -, -, -, hv, ha, hdia, -⟩ := finishDirective_ok h
        obtain ⟨hfv, hfa, hfd⟩ := runSection_flags hrs
        exact ⟨fun h1 => hv.trans (hfv h1), fun h1 => ha.trans (hfa h1),
          fun h1 => hdia.trans (hfd h1)⟩
      · rename_i st2 ts'' hb
        by_cases hst : st = State.StateNone
        · rw [if_pos hst] at h; exact absurd h (by simp)
        · rw [if_neg hst] at h
          simp only [consVisit] at h
          have hsub : ts'' <:+ ts := (boundaryLoop_cont_suffix hb).trans (runSection_ok hrs).1
          obtain ⟨iv, ia, idia⟩ := ih h
          obtain ⟨hfv, hfa, hfd⟩ := runSection_flags hrs
          refine ⟨fun h1 => ?_, fun h1 => ?_, fun h1 => ?_⟩
          · exact (iv (hasStrTok_suffix hsub h1)).trans (hfv h1)
          · exact (ia (hasStrTok_suffix hsub h1)).trans (hfa h1)
          · exact (idia (hasStrTok_suffix hsub h1)).trans (hfd h1)

/-! ## Claim C7: option-keyword handling -/

/-- Claim C7 (confirmed): each option literal is compared exactly
against the fixed set `{"volatile", "alignstack", "intel"}` —
`"volatile"` sets the volatile flag, `"alignstack"` the align-stack
flag, `"intel"` the Intel dialect, and any other literal emits exactly
one "unrecognized option" warning and changes no flag; and whenever the
stream has no string token with the corresponding keyword, a produced
directive has `volatile = false`, `align_stack = false` and ATT dialect
(the initial values). -/
theorem claim_C7 :
    (∀ (sty : Nat) (rest : List Tok) (fl : Flags) ds,
      optionsPass (Tok.str "volatile" sty :: rest) fl ds =
        Except.ok ({ fl with volatile := true }, ds, optionsComma rest)) ∧
    (∀ (sty : Nat) (rest : List Tok) (fl : Flags) ds,
      optionsPass (Tok.str "alignstack" sty :: rest) fl ds =
        Except.ok ({ fl with alignstack := true }, ds, optionsComma rest)) ∧
    (∀ (sty : Nat) (rest : List Tok) (fl : Flags) ds,
      optionsPass (Tok.str "intel" sty :: rest) fl ds =
        Except.ok ({ fl with dialect := Dialect.intel }, ds, optionsComma rest)) ∧
    (∀ (kw : String) (sty : Nat) (rest : List Tok) (fl : Flags) ds, kw ∉ OPTIONS →
      optionsPass (Tok.str kw sty :: rest) fl ds =
        Except.ok (fl, ds ++ [Diag.warn "unrecognized option"], optionsComma rest)) ∧
    initAcc.flags = { volatile := false, alignstack := false, dialect := Dialect.att } ∧
    (∀ (ts : List Tok) d, (expand_asm ts).result = ExpandResult.ok d →
      (hasStrTok "volatile" ts = false → d.volatile = false) ∧
      (hasStrTok "alignstack" ts = false → d.alignstack = false) ∧
      (hasStrTok "intel" ts = false → d.dialect = Dialect.att)) := by
  refine ⟨?_, ?_, ?_, ?_, rfl, ?_⟩
  · intro sty rest fl ds
    rw [optionsPass_keyword]
    simp [applyOptionKeyword]
  · intro sty rest fl ds
    rw [optionsPass_keyword]
    simp [applyOptionKeyword]
  · intro sty rest fl ds
    rw [optionsPass_keyword]
    simp [applyOptionKeyword]
  · intro kw sty rest fl ds hmem
    simp only [OPTIONS, List.mem_cons, List.mem_singleton] at hmem
    push_neg at hmem
    obtain ⟨h1, h2, h3⟩ := hmem
    rw [optionsPass_keyword, applyOptionKeyword, if_neg h1, if_neg h2,
      if_neg (by simpa using h3)]
  · intro ts d h
    exact statementLoopF_flags h

theorem claim_C7_witness :
    ("foo" ∉ OPTIONS ∧
      optionsPass [Tok.str "foo" 0] initAcc.flags [] =
        Except.ok (initAcc.flags, [Diag.warn "unrecognized option"], [])) ∧
    (expand_asm [Tok.str "nop" 0]).result = ExpandResult.ok
      { asm := "nop", asm_str_style := 0, outputs := [], inputs := [], clobbers := []
        volatile := false, alignstack := false, dialect := Dialect.att } ∧
    ({ asm := "nop", asm_str_style := 0, outputs := [], inputs := [], clobbers := []
       volatile := false, alignstack := false, dialect := Dialect.att } :
        InlineAsm).volatile = false ∧
    ({ asm := "nop", asm_str_style := 0, outputs := [], inputs := [], clobbers := []
       volatile := false, alignstack := false, dialect := Dialect.att } :
        InlineAsm).dialect = Dialect.att := by
  have h6 := claim_C7.2.2.2.2.2 [Tok.str "nop" 0]
    { asm := "nop", asm_str_style := 0, outputs := [], inputs := [], clobbers := []
      volatile := false, alignstack := false, dialect := Dialect.att } (by decide)
  exact ⟨⟨by decide, claim_C7.2.2.2.1 "foo" 0 [] initAcc.flags [] (by decide)⟩,
    by decide, h6.1 (by decide), h6.2.2 (by decide)⟩

/-! ## Claim C9: termination -/

theorem finishDirective_result_ne_diverge (acc : Acc) (ds : List Diag) (vs : List State)
    (b : Bool) : (finishDirective acc ds vs b).result ≠ ExpandResult.diverge := by
  rw [finishDirective]
  cases acc.asm_str_style <;> simp

theorem statementLoopF_no_diverge : ∀ {fuel : Nat} {st ts acc ds},
    ts.length < fuel → st ≠ State.StateNone →
    (statementLoopF fuel st ts acc ds).result ≠ ExpandResult.diverge := by
  intro fuel
  induction fuel with
  | zero => intro st ts acc ds hm; exact absurd hm (by omega)
  | succ n ih =>
    intro st ts acc ds hm hst
    rw [statementLoopF]
    split
    · rename_i r acc' ds' hrs
      rcases runSection_stop hrs with rfl | rfl <;> simp
    · rename_i acc' ds' ts' hrs
      split
      · rename_i b rest hb
        exact finishDirective_result_ne_diverge acc' ds' [st] b
      · rename_i st2 ts'' hb
        rw [if_neg hst]
        simp only [consVisit]
        obtain ⟨-, hlt, hne⟩ := progress hrs hb hst
        exact ih (by omega) hne

/-- Claim C9 (confirmed): the parsing loop terminates on every finite
token stream.  The shallow embedding is a total function except for the
one path of the source that does not consume tokens (a non-boundary
token while in the terminal state), modelled by `ExpandResult.diverge`;
the first conjunct shows that path is unreachable from the initial
state.  The second conjunct shows every boundary-loop fall-through
either consumed nothing (a non-boundary token) or consumed boundary
tokens and advanced the section state strictly forward; the third shows
every full iteration that continues strictly consumes tokens. -/
theorem claim_C9 :
    (∀ ts : List Tok, (expand_asm ts).result ≠ ExpandResult.diverge) ∧
    (∀ (st : State) (ts : List Tok) st' ts',
      boundaryLoop st ts = BoundaryStep.cont st' ts' →
      (st' = st ∧ ts' = ts ∧ isSectionEnd ts = false) ∨
      (State.idx st < State.idx st' ∧ ts'.length < ts.length)) ∧
    (∀ (st : State) (ts : List Tok) acc ds acc' ds' ts' st2 ts'',
      st ≠ State.StateNone →
      runSection st ts acc ds = SectionOut.ok acc' ds' ts' →
      boundaryLoop st ts' = BoundaryStep.cont st2 ts'' →
      ts''.length < ts.length) := by
  refine ⟨?_, ?_, ?_⟩
  · intro ts
    exact statementLoopF_no_diverge (by omega) (by simp)
  · intro st ts st' ts' h
    rcases boundaryLoop_cont_cases h with ⟨h1, h2, h3⟩ | ⟨-, h2, h3, -⟩
    · exact Or.inl ⟨h1, h2, h3⟩
    · exact Or.inr ⟨h2, h3⟩
  · intro st ts acc ds acc' ds' ts' st2 ts'' hst hrs hb
    exact (progress hrs hb hst).2.1

theorem claim_C9_witness :
    (expand_asm [Tok.str "a" 0]).result ≠ ExpandResult.diverge ∧
    ((State.Outputs = State.Asm ∧ [Tok.str "x" 0] = [Tok.colon, Tok.str "x" 0] ∧
        isSectionEnd [Tok.colon, Tok.str "x" 0] = false) ∨
      (State.idx State.Asm < State.idx State.Outputs ∧
        ([Tok.str "x" 0] : List Tok).length < ([Tok.colon, Tok.str "x" 0] : List Tok).length)) ∧
    ([Tok.str "x" 0] : List Tok).length <
      ([Tok.colon, Tok.str "x" 0] : List Tok).length := by
  refine ⟨claim_C9.1 [Tok.str "a" 0],
    claim_C9.2.1 State.Asm [Tok.colon, Tok.str "x" 0] State.Outputs [Tok.str "x" 0] rfl,
    claim_C9.2.2 State.Outputs [Tok.colon, Tok.str "x" 0] initAcc [] initAcc []
      [Tok.colon, Tok.str "x" 0] State.Inputs [Tok.str "x" 0] (by decide) rfl rfl⟩

/-! ## Visit accounting -/

theorem finishDirective_visits (acc : Acc) (ds : List Diag) (vs : List State) (b : Bool) :
    (finishDirective acc ds vs b).visits = vs := by
  rw [finishDirective]; cases acc.asm_str_style <;> rfl

theorem finishDirective_asmSets (acc : Acc) (ds : List Diag) (vs : List State) (b : Bool) :
    (finishDirective acc ds vs b).asmSets = acc.asmSets := by
  rw [finishDirective]; cases acc.asm_str_style <;> rfl

theorem finishDirective_ended (acc : Acc) (ds : List Diag) (vs : List State) (b : Bool) :
    (finishDirective acc ds vs b).endedByBoundary = b := by
  rw [finishDirective]; cases acc.asm_str_style <;> rfl

theorem countState_single (s t : State) : countState s [t] ≤ 1 := by
  rw [countState, countState]
  split <;> omega

theorem countState_eq_zero {s : State} : ∀ {l : List State},
    (∀ v ∈ l, v ≠ s) → countState s l = 0 := by
  intro l
  induction l with
  | nil => intro _; rfl
  | cons t rest ih =>
    intro h
    rw [countState, if_neg (h t (List.mem_cons_self t rest)), ih fun v hv =>
      h v (List.mem_cons_of_mem t hv)]

/-- The Outputs, Inputs and Clobbers content parsers consume tokens
until a boundary or end-of-input. -/
theorem runSection_OIC_end {st : State} {ts : List Tok} {acc ds acc' ds' ts'}
    (hs : st = State.Outputs ∨ st = State.Inputs ∨ st = State.Clobbers)
    (h : runSection st ts acc ds = SectionOut.ok acc' ds' ts') :
    isSectionEnd ts' = true := by
  rcases hs with rfl | rfl | rfl <;>
    (rw [runSection] at h
     split at h
     · exact absurd h (by simp)
     · rename_i a b c hol
       obtain ⟨-, -, rfl⟩ : _ ∧ b = ds' ∧ c = ts' := by simpa using h
       first
         | exact (outputsLoopF_ok hol).2
         | exact (inputsLoopF_ok hol).2
         | exact (clobbersLoopF_ok hol).2)

/-- Every section state recorded in a run's visit sequence lies at or
after the state the run started in. -/
theorem statementLoopF_visits_lb : ∀ {fuel : Nat} {st ts acc ds} {v : State},
    v ∈ (statementLoopF fuel st ts acc ds).visits → State.idx st ≤ State.idx v := by
  intro fuel
  induction fuel with
  | zero => intro st ts acc ds v hv; simp [statementLoopF] at hv
  | succ n ih =>
    intro st ts acc ds v hv
    rw [statementLoopF] at hv
    split at hv
    · rename_i r acc' ds' hrs
      obtain rfl : v = st := by simpa using hv
      exact le_refl _
    · rename_i acc' ds' ts' hrs
      split at hv
      · rename_i b rest hb
        rw [finishDirective_visits] at hv
        obtain rfl : v = st := by simpa using hv
        exact le_refl _
      · rename_i st2 ts'' hb
        by_cases hst : st = State.StateNone
        · rw [if_pos hst] at hv
          obtain rfl : v = st := by simpa using hv
          exact le_refl _
        · rw [if_neg hst] at hv
          simp only [consVisit, List.mem_cons] at hv
          rcases hv with rfl | hv
          · exact le_refl _
          · have h2 := ih hv
            rcases boundaryLoop_cont_cases hb with ⟨rfl, -, -⟩ | ⟨-, hidx, -, -⟩
            · exact h2
            · exact le_of_lt (lt_of_lt_of_le hidx h2)

/-- The Outputs, Inputs and Clobbers sections are each visited at most
once in any run. -/
theorem statementLoopF_count {s : State}
    (hs : s = State.Outputs ∨ s = State.Inputs ∨ s = State.Clobbers) :
    ∀ {fuel : Nat} {st ts acc ds},
      countState s (statementLoopF fuel st ts acc ds).visits ≤ 1 := by
  intro fuel
  induction fuel with
  | zero => intro st ts acc ds; simp [statementLoopF, countState]
  | succ n ih =>
    intro st ts acc ds
    rw [statementLoopF]
    split
    · exact countState_single s _
    · rename_i acc' ds' ts' hrs
      split
      · rw [finishDirective_visits]; exact countState_single s _
      · rename_i st2 ts'' hb
        by_cases hst : st = State.StateNone
        · rw [if_pos hst]; exact countState_single s _
        · rw [if_neg hst]
          simp only [consVisit]
          rw [countState]
          by_cases hss : st = s
          · rw [if_pos hss]
            have hend : isSectionEnd ts' = true :=
              runSection_OIC_end (by rw [hss]; exact hs) hrs
            rcases boundaryLoop_cont_cases hb with ⟨-, rfl, hsec⟩ | ⟨-, hidx, -, -⟩
            · rw [hend] at hsec; cases hsec
            · have hz : countState s (statementLoopF n st2 ts'' acc' ds').visits = 0 := by
                apply countState_eq_zero
                intro v hv hvs
                have hlb := statementLoopF_visits_lb hv
                rw [hvs, ← hss] at hlb
                omega
              omega
          · rw [if_neg hss]
            have := @ih st2 ts'' acc' ds'
            omega

/-- A run producing a directive stored the template at least once. -/
theorem statementLoopF_asmSets : ∀ {fuel : Nat} {st ts acc ds d},
    (statementLoopF fuel st ts acc ds).result = ExpandResult.ok d →
    (acc.asm_str_style.isSome = true → 1 ≤ acc.asmSets) →
    1 ≤ (statementLoopF fuel st ts acc ds).asmSets := by
  intro fuel
  induction fuel with
  | zero => intro st ts acc ds d h; simp [statementLoopF] at h
  | succ n ih =>
    intro st ts acc ds d h hinv
    obtain ⟨out, hout⟩ : ∃ out, statementLoopF (n + 1) st ts acc ds = out := ⟨_, rfl⟩
    rw [hout] at h ⊢
    rw [statementLoopF] at hout
    split at hout
    · rename_i r acc' ds' hrs
      subst hout
      rcases runSection_stop hrs with rfl | rfl <;> exact absurd h (by simp)
    · rename_i acc' ds' ts' hrs
      have hinv' : acc'.asm_str_style.isSome = true → 1 ≤ acc'.asmSets := by
        intro hsome
        by_cases hstA : st = State.Asm
        · obtain ⟨hsets, -⟩ := (runSection_ok_acc hrs).2.2.2.2.2.2.2 hstA
          omega
        · obtain ⟨-, hsty, hsets⟩ := (runSection_ok_acc hrs).1 hstA
          rw [hsets]
          exact hinv (by rw [← hsty]; exact hsome)
      split at hout
      · rename_i b rest hb
        subst hout
        rw [finishDirective_asmSets]
        exact hinv' (finishDirective_ok h).2.2.2.2.2.2.2
      · rename_i st2 ts'' hb
        by_cases hst : st = State.StateNone
        · rw [if_pos hst] at hout
          subst hout
          exact absurd h (by simp)
        · rw [if_neg hst] at hout
          subst hout
          simp only [consVisit] at h ⊢
          exact ih h hinv'

/-! ## Claim C2: the template is not always set exactly once -/

/-- Claim C2 counterexample: on the stream `"a" "b"` (two string
literals, no boundary), a directive is produced, yet the Template
section ran twice and the assignment `asm = s` executed twice — the
second literal overwrites the first, because `parse_expr` does not
consume input up to a boundary. -/
theorem claim_C2_counterexample :
    (expand_asm [Tok.str "a" 0, Tok.str "b" 0]).result = ExpandResult.ok
      { asm := "b", asm_str_style := 0, outputs := [], inputs := [], clobbers := []
        volatile := false, alignstack := false, dialect := Dialect.att } ∧
    (expand_asm [Tok.str "a" 0, Tok.str "b" 0]).asmSets = 2 := by decide

/-- Claim C2, amended: on every run producing a directive the template
is set at least once, and the Outputs, Inputs and Clobbers sections are
each entered at most once because their content parsers consume tokens
until a boundary or end-of-input; the Template section, however, can be
re-entered (overwriting the template) when a non-boundary token follows
the template expression. -/
theorem claim_C2 (ts : List Tok) (d : InlineAsm)
    (h : (expand_asm ts).result = ExpandResult.ok d) :
    1 ≤ (expand_asm ts).asmSets ∧
    countState State.Outputs (expand_asm ts).visits ≤ 1 ∧
    countState State.Inputs (expand_asm ts).visits ≤ 1 ∧
    countState State.Clobbers (expand_asm ts).visits ≤ 1 := by
  refine ⟨statementLoopF_asmSets h ?_, statementLoopF_count (Or.inl rfl),
    statementLoopF_count (Or.inr (Or.inl rfl)), statementLoopF_count (Or.inr (Or.inr rfl))⟩
  intro hsome
  simp [initAcc] at hsome

theorem claim_C2_witness :
    1 ≤ (expand_asm [Tok.str "a" 0]).asmSets ∧
    countState State.Outputs (expand_asm [Tok.str "a" 0]).visits ≤ 1 ∧
    countState State.Inputs (expand_asm [Tok.str "a" 0]).visits ≤ 1 ∧
    countState State.Clobbers (expand_asm [Tok.str "a" 0]).visits ≤ 1 :=
  claim_C2 [Tok.str "a" 0]
    { asm := "a", asm_str_style := 0, outputs := [], inputs := [], clobbers := []
      volatile := false, alignstack := false, dialect := Dialect.att } (by decide)

/-! ## Claim C8: unvisited sections stay empty -/

/-- Sections whose state never appears in the visit sequence leave their
accumulator untouched in the produced directive. -/
theorem statementLoopF_unvisited : ∀ {fuel : Nat} {st ts acc ds d},
    (statementLoopF fuel st ts acc ds).result = ExpandResult.ok d →
    (State.Outputs ∉ (statementLoopF fuel st ts acc ds).visits → d.outputs = acc.outputs) ∧
    (State.Inputs ∉ (statementLoopF fuel st ts acc ds).visits → d.inputs = acc.inputs) ∧
    (State.Clobbers ∉ (statementLoopF fuel st ts acc ds).visits → d.clobbers = acc.clobs) ∧
    (State.Options ∉ (statementLoopF fuel st ts acc ds).visits →
      d.volatile = acc.flags.volatile ∧ d.alignstack = acc.flags.alignstack ∧
      d.dialect = acc.flags.dialect) := by
  intro fuel
  induction fuel with
  | zero => intro st ts acc ds d h; simp [statementLoopF] at h
  | succ n ih =>
    intro st ts acc ds d h
    obtain ⟨out, hout⟩ : ∃ out, statementLoopF (n + 1) st ts acc ds = out := ⟨_, rfl⟩
    rw [hout] at h ⊢
    rw [statementLoopF] at hout
    split at hout
    · rename_i r acc' ds' hrs
      subst hout
      rcases runSection_stop hrs with rfl | rfl <;> exact absurd h (by simp)
    · rename_i acc' ds' ts' hrs
      split at hout
      · rename_i b rest hb
        subst hout
        obtain ⟨-, ho, hi, hc, hv, ha, hdia, -⟩ := finishDirective_ok h
        have hacc := runSection_ok_acc hrs
        refine ⟨fun hnm => ?_, fun hnm => ?_, fun hnm => ?_, fun hnm => ?_⟩ <;>
          rw [finishDirective_visits] at hnm
        · exact ho.trans (hacc.2.1 fun he =>
            hnm (by rw [he]; exact List.mem_singleton_self _))
        · exact hi.trans (hacc.2.2.1 fun he =>
            hnm (by rw [he]; exact List.mem_singleton_self _))
        · exact hc.trans (hacc.2.2.2.1 fun he =>
            hnm (by rw [he]; exact List.mem_singleton_self _))
        · have hfl := hacc.2.2.2.2.1 fun he =>
            hnm (by rw [he]; exact List.mem_singleton_self _)
          exact ⟨hv.trans (by rw [hfl]), ha.trans (by rw [hfl]), hdia.trans (by rw [hfl])⟩
      · rename_i st2 ts'' hb
        by_cases hst : st = State.StateNone
        · rw [if_pos hst] at hout
          subst hout
          exact absurd h (by simp)
        · rw [if_neg hst] at hout
          subst hout
          simp only [consVisit] at h ⊢
          have hacc := runSection_ok_acc hrs
          have hih := ih h
          refine ⟨fun hnm => ?_, fun hnm => ?_, fun hnm => ?_, fun hnm => ?_⟩ <;>
            simp only [List.mem_cons, not_or] at hnm
          · exact (hih.1 hnm.2).trans (hacc.2.1 fun he => hnm.1 (by rw [he]))
          · exact (hih.2.1 hnm.2).trans (hacc.2.2.1 fun he => hnm.1 (by rw [he]))
          · exact (hih.2.2.1 hnm.2).trans (hacc.2.2.2.1 fun he => hnm.1 (by rw [he]))
          · have hfl := hacc.2.2.2.2.1 fun he => hnm.1 (by rw [he])
            obtain ⟨hv, ha, hdia⟩ := hih.2.2.2 hnm.2
            exact ⟨hv.trans (by rw [hfl]), ha.trans (by rw [hfl]),
              hdia.trans (by rw [hfl])⟩

/-- Building the directive always succeeds once the template style has
been recorded: the `asm_str_style.unwrap()` panic cannot fire.  Both
exit paths of the boundary loop — a terminating boundary and
end-of-input — reach `finishDirective`, so in particular the
end-of-input exit terminates parsing successfully. -/
theorem finishDirective_isSome_ok {acc : Acc} (ds : List Diag) (vs : List State) (b : Bool)
    (h : acc.asm_str_style.isSome = true) :
    ∃ d, (finishDirective acc ds vs b).result = ExpandResult.ok d := by
  rw [finishDirective]
  cases hs : acc.asm_str_style with
  | none => rw [hs] at h; simp at h
  | some style => exact ⟨_, rfl⟩

/-- Every run from a non-terminal state that starts in the Asm section
or already carries a recorded template style ends in one of exactly
three ways: a fatal cursor failure, the `DummyResult` of a non-literal
template (both raised inside a section's content parser), or a
successfully built directive.  The panic and divergence outcomes are
unreachable: whichever way the boundary loop exits — terminating
boundary or end-of-input — the directive is built. -/
theorem statementLoopF_ok_or_err : ∀ {fuel : Nat} {st ts acc ds},
    ts.length < fuel → st ≠ State.StateNone →
    (st = State.Asm ∨ acc.asm_str_style.isSome = true) →
    (statementLoopF fuel st ts acc ds).result = ExpandResult.fatal ∨
    (statementLoopF fuel st ts acc ds).result = ExpandResult.dummy ∨
    ∃ d, (statementLoopF fuel st ts acc ds).result = ExpandResult.ok d := by
  intro fuel
  induction fuel with
  | zero => intro st ts acc ds hm; exact absurd hm (by omega)
  | succ n ih =>
    intro st ts acc ds hm hst hsome
    obtain ⟨out, hout⟩ : ∃ out, statementLoopF (n + 1) st ts acc ds = out := ⟨_, rfl⟩
    rw [hout]
    rw [statementLoopF] at hout
    split at hout
    · rename_i r acc' ds' hrs
      subst hout
      rcases runSection_stop hrs with rfl | rfl
      · exact Or.inl rfl
      · exact Or.inr (Or.inl rfl)
    · rename_i acc' ds' ts' hrs
      have hsome' : acc'.asm_str_style.isSome = true := by
        rcases hsome with hstA | hs
        · exact ((runSection_ok_acc hrs).2.2.2.2.2.2.2 hstA).2
        · exact (runSection_ok_acc hrs).2.2.2.2.2.1 hs
      split at hout
      · rename_i b rest hb
        subst hout
        exact Or.inr (Or.inr (finishDirective_isSome_ok ds' [st] b hsome'))
      · rename_i st2 ts'' hb
        rw [if_neg hst] at hout
        subst hout
        simp only [consVisit]
        obtain ⟨-, hlt, hne⟩ := progress hrs hb hst
        exact ih (by omega) hne (Or.inr hsome')

/-- Claim C8 (confirmed): reaching end-of-input at any section boundary
terminates parsing successfully, and every unvisited section of the
returned directive is empty.  The first conjunct settles the success
half in general: every run either aborts inside a section's content
parser (a fatal cursor failure, or the non-literal-template
`DummyResult` — situations outside the claim's premise, which has every
section's content parsed when input ends) or terminates successfully
with a directive; the unreachable panic and divergence outcomes are
excluded, so in particular the end-of-input exit of the boundary loop
always builds a directive.  The second conjunct shows every unvisited
section of that directive keeps its empty/default initial value; the
third is the extreme template-only scenario, end-of-input right after
the first section. -/
theorem claim_C8 :
    (∀ ts : List Tok,
      (expand_asm ts).result = ExpandResult.fatal ∨
      (expand_asm ts).result = ExpandResult.dummy ∨
      ∃ d, (expand_asm ts).result = ExpandResult.ok d) ∧
    (∀ (ts : List Tok) d, (expand_asm ts).result = ExpandResult.ok d →
      (State.Outputs ∉ (expand_asm ts).visits → d.outputs = []) ∧
      (State.Inputs ∉ (expand_asm ts).visits → d.inputs = []) ∧
      (State.Clobbers ∉ (expand_asm ts).visits → d.clobbers = []) ∧
      (State.Options ∉ (expand_asm ts).visits →
        d.volatile = false ∧ d.alignstack = false ∧ d.dialect = Dialect.att)) ∧
    expand_asm [Tok.str "nop" 0] =
      { result := ExpandResult.ok
          { asm := "nop", asm_str_style := 0, outputs := [], inputs := [], clobbers := []
            volatile := false, alignstack := false, dialect := Dialect.att }
        diags := [], asmSets := 1, visits := [State.Asm], endedByBoundary := false } := by
  refine ⟨?_, ?_, by decide⟩
  · intro ts
    exact statementLoopF_ok_or_err (by omega) (by simp) (Or.inl rfl)
  · intro ts d h
    exact statementLoopF_unvisited h

theorem claim_C8_witness :
    ({ asm := "a", asm_str_style := 0, outputs := [("=r", Expr.other 1, false)]
       inputs := [], clobbers := [], volatile := false, alignstack := false
       dialect := Dialect.att } : InlineAsm).inputs = [] ∧
    ({ asm := "a", asm_str_style := 0, outputs := [("=r", Expr.other 1, false)]
       inputs := [], clobbers := [], volatile := false, alignstack := false
       dialect := Dialect.att } : InlineAsm).clobbers = [] ∧
    ({ asm := "a", asm_str_style := 0, outputs := [("=r", Expr.other 1, false)]
       inputs := [], clobbers := [], volatile := false, alignstack := false
       dialect := Dialect.att } : InlineAsm).dialect = Dialect.att := by
  have h := claim_C8.2.1
    [Tok.str "a" 0, Tok.colon, Tok.str "=r" 0, Tok.lparen, Tok.exprTok (Expr.other 1),
      Tok.rparen]
    { asm := "a", asm_str_style := 0, outputs := [("=r", Expr.other 1, false)]
      inputs := [], clobbers := [], volatile := false, alignstack := false
      dialect := Dialect.att } (by decide)
  exact ⟨h.2.1 (by decide), h.2.2.1 (by decide), (h.2.2.2 (by decide)).2.2⟩

/-! ## Claim C10: tokens after a terminating boundary are ignored -/

theorem isSectionEnd_append {ts : List Tok} (junk : List Tok) (hne : ts ≠ []) :
    isSectionEnd (ts ++ junk) = isSectionEnd ts := by
  cases ts with
  | nil => exact absurd rfl hne
  | cons t rest => cases t <;> rfl

theorem parse_str_append {ts ts2 : List Tok} {r : String × Nat} (junk : List Tok)
    (h : parse_str ts = some (r, ts2)) : parse_str (ts ++ junk) = some (r, ts2 ++ junk) := by
  obtain ⟨s, sty⟩ := r
  rw [parse_str_eq_some h]
  rfl

theorem parse_expr_append {ts ts2 : List Tok} {e : Expr} (junk : List Tok)
    (h : parse_expr ts = some (e, ts2)) : parse_expr (ts ++ junk) = some (e, ts2 ++ junk) := by
  cases ts with
  | nil => simp [parse_expr] at h
  | cons t rest =>
    cases t <;> simp [parse_expr] at h <;> simp [parse_expr, h.1, h.2]

theorem expect_append {t : Tok} {ts ts2 : List Tok} (junk : List Tok)
    (h : expect t ts = some ts2) : expect t (ts ++ junk) = some (ts2 ++ junk) := by
  rw [expect_eq_some h]
  simp [expect]

theorem eatComma_append {ts : List Tok} (junk : List Tok) (hne : ts ≠ []) :
    eatComma (ts ++ junk) = eatComma ts ++ junk := by
  cases ts with
  | nil => exact absurd rfl hne
  | cons t rest => cases t <;> rfl

theorem optionsComma_append {ts : List Tok} (junk : List Tok) (hne : ts ≠ []) :
    optionsComma (ts ++ junk) = optionsComma ts ++ junk := by
  cases ts with
  | nil => exact absurd rfl hne
  | cons t rest => cases t <;> simp [optionsComma, eatComma]

theorem outputsLoopF_append : ∀ {m : Nat} (n : Nat) {ts outs ds outs' ds' ts'} (junk : List Tok),
    m ≤ n → outputsLoopF m ts outs ds = Except.ok (outs', ds', ts') → ts' ≠ [] →
    outputsLoopF n (ts ++ junk) outs ds = Except.ok (outs', ds', ts' ++ junk) := by
  intro m
  induction m with
  | zero => intro n ts outs ds outs' ds' ts' junk _ h; simp [outputsLoopF] at h
  | succ m' ih =>
    intro n ts outs ds outs' ds' ts' junk hmn h hne
    obtain ⟨n', rfl⟩ : ∃ n', n = n' + 1 := ⟨n - 1, by omega⟩
    rw [outputsLoopF] at h
    rw [outputsLoopF]
    by_cases hse : isSectionEnd ts = true
    · rw [if_pos hse] at h
      obtain ⟨rfl, rfl, rfl⟩ : outs = outs' ∧ ds = ds' ∧ ts = ts' := by simpa using h
      rw [if_pos (by rw [isSectionEnd_append junk hne]; exact hse)]
    · have hne0 : ts ≠ [] := by rintro rfl; exact hse rfl
      rw [if_neg hse] at h
      rw [if_neg (by rw [isSectionEnd_append junk hne0]; exact hse)]
      have hsplit : (if outs.length ≠ 0 then eatComma (ts ++ junk) else ts ++ junk) =
          (if outs.length ≠ 0 then eatComma ts else ts) ++ junk := by
        split
        · exact eatComma_append junk hne0
        · rfl
      rw [hsplit]
      generalize (if outs.length ≠ 0 then eatComma ts else ts) = ts1 at h
      split at h
      · exact absurd h (by simp)
      · rename_i constraint _style ts2 hps
        split at h
        · exact absurd h (by simp)
        · rename_i ts3 hlp
          split at h
          · exact absurd h (by simp)
          · rename_i out ts4 hpe
            split at h
            · exact absurd h (by simp)
            · rename_i ts5 hrp
              simp only [parse_str_append junk hps, expect_append junk hlp,
                parse_expr_append junk hpe, expect_append junk hrp]
              exact ih n' junk (by omega) h hne

theorem inputsLoopF_append : ∀ {m : Nat} (n : Nat) {ts ins ds ins' ds' ts'} (junk : List Tok),
    m ≤ n → inputsLoopF m ts ins ds = Except.ok (ins', ds', ts') → ts' ≠ [] →
    inputsLoopF n (ts ++ junk) ins ds = Except.ok (ins', ds', ts' ++ junk) := by
  intro m
  induction m with
  | zero => intro n ts ins ds ins' ds' ts' junk _ h; simp [inputsLoopF] at h
  | succ m' ih =>
    intro n ts ins ds ins' ds' ts' junk hmn h hne
    obtain ⟨n', rfl⟩ : ∃ n', n = n' + 1 := ⟨n - 1, by omega⟩
    rw [inputsLoopF] at h
    rw [inputsLoopF]
    by_cases hse : isSectionEnd ts = true
    · rw [if_pos hse] at h
      obtain ⟨rfl, rfl, rfl⟩ : ins = ins' ∧ ds = ds' ∧ ts = ts' := by simpa using h
      rw [if_pos (by rw [isSectionEnd_append junk hne]; exact hse)]
    · have hne0 : ts ≠ [] := by rintro rfl; exact hse rfl
      rw [if_neg hse] at h
      rw [if_neg (by rw [isSectionEnd_append junk hne0]; exact hse)]
      have hsplit : (if ins.length ≠ 0 then eatComma (ts ++ junk) else ts ++ junk) =
          (if ins.length ≠ 0 then eatComma ts else ts) ++ junk := by
        split
        · exact eatComma_append junk hne0
        · rfl
      rw [hsplit]
      generalize (if ins.length ≠ 0 then eatComma ts else ts) = ts1 at h
      split at h
      · exact absurd h (by simp)
      · rename_i constraint _style ts2 hps
        split at h
        · exact absurd h (by simp)
        · rename_i ts3 hlp
          split at h
          · exact absurd h (by simp)
          · rename_i inp ts4 hpe
            split at h
            · exact absurd h (by simp)
            · rename_i ts5 hrp
              simp only [parse_str_append junk hps, expect_append junk hlp,
                parse_expr_append junk hpe, expect_append junk hrp]
              exact ih n' junk (by omega) h hne

theorem clobbersLoopF_append : ∀ {m : Nat} (n : Nat) {ts clobs ds clobs' ds' ts'} (junk : List Tok),
    m ≤ n → clobbersLoopF m ts clobs ds = Except.ok (clobs', ds', ts') → ts' ≠ [] →
    clobbersLoopF n (ts ++ junk) clobs ds = Except.ok (clobs', ds', ts' ++ junk) := by
  intro m
  induction m with
  | zero => intro n ts clobs ds clobs' ds' ts' junk _ h; simp [clobbersLoopF] at h
  | succ m' ih =>
    intro n ts clobs ds clobs' ds' ts' junk hmn h hne
    obtain ⟨n', rfl⟩ : ∃ n', n = n' + 1 := ⟨n - 1, by omega⟩
    rw [clobbersLoopF] at h
    rw [clobbersLoopF]
    by_cases hse : isSectionEnd ts = true
    · rw [if_pos hse] at h
      obtain ⟨rfl, rfl, rfl⟩ : clobs = clobs' ∧ ds = ds' ∧ ts = ts' := by simpa using h
      rw [if_pos (by rw [isSectionEnd_append junk hne]; exact hse)]
    · have hne0 : ts ≠ [] := by rintro rfl; exact hse rfl
      rw [if_neg hse] at h
      rw [if_neg (by rw [isSectionEnd_append junk hne0]; exact hse)]
      have hsplit : (if clobs.length ≠ 0 then eatComma (ts ++ junk) else ts ++ junk) =
          (if clobs.length ≠ 0 then eatComma ts else ts) ++ junk := by
        split
        · exact eatComma_append junk hne0
        · rfl
      rw [hsplit]
      generalize (if clobs.length ≠ 0 then eatComma ts else ts) = ts1 at h
      split at h
      · exact absurd h (by simp)
      · rename_i s _style ts2 hps
        simp only [parse_str_append junk hps]
        exact ih n' junk (by omega) h hne

theorem optionsPass_append {ts : List Tok} {fl ds fl' ds' ts'} (junk : List Tok)
    (h : optionsPass ts fl ds = Except.ok (fl', ds', ts')) (hne : ts' ≠ []) :
    optionsPass (ts ++ junk) fl ds = Except.ok (fl', ds', ts' ++ junk) := by
  obtain ⟨kw, sty, rest, rfl, rfl, rfl, rfl⟩ := optionsPass_ok h
  have hrest : rest ≠ [] := by
    rintro rfl
    exact hne rfl
  rw [List.cons_append, optionsPass_keyword, optionsComma_append junk hrest]

theorem runSection_append {st : State} {ts : List Tok} {acc ds acc' ds' ts'}
    (junk : List Tok) (h : runSection st ts acc ds = SectionOut.ok acc' ds' ts')
    (hne : ts' ≠ []) :
    runSection st (ts ++ junk) acc ds = SectionOut.ok acc' ds' (ts' ++ junk) := by
  cases st with
  | Asm =>
    rw [runSection] at h
    split at h
    · exact absurd h (by simp)
    · rename_i s style ts1 hpe
      obtain ⟨rfl, rfl, rfl⟩ : _ = acc' ∧ ds = ds' ∧ ts1 = ts' := by simpa using h
      rw [runSection]
      simp only [parse_expr_append junk hpe]
    · exact absurd h (by simp)
  | Outputs =>
    rw [runSection] at h
    split at h
    · exact absurd h (by simp)
    · rename_i outs ds1 ts1 hol
      obtain ⟨rfl, rfl, rfl⟩ : _ = acc' ∧ ds1 = ds' ∧ ts1 = ts' := by simpa using h
      rw [runSection]
      have := outputsLoopF_append ((ts ++ junk).length + 1) junk
        (by simp [List.length_append]) hol hne
      simp only [outputsLoop, this]
  | Inputs =>
    rw [runSection] at h
    split at h
    · exact absurd h (by simp)
    · rename_i ins ds1 ts1 hol
      obtain ⟨rfl, rfl, rfl⟩ : _ = acc' ∧ ds1 = ds' ∧ ts1 = ts' := by simpa using h
      rw [runSection]
      have := inputsLoopF_append ((ts ++ junk).length + 1) junk
        (by simp [List.length_append]) hol hne
      simp only [inputsLoop, this]
  | Clobbers =>
    rw [runSection] at h
    split at h
    · exact absurd h (by simp)
    · rename_i clobs ds1 ts1 hol
      obtain ⟨rfl, rfl, rfl⟩ : _ = acc' ∧ ds1 = ds' ∧ ts1 = ts' := by simpa using h
      rw [runSection]
      have := clobbersLoopF_append ((ts ++ junk).length + 1) junk
        (by simp [List.length_append]) hol hne
      simp only [clobbersLoop, this]
  | Options =>
    rw [runSection] at h
    split at h
    · exact absurd h (by simp)
    · rename_i fl ds1 ts1 hop
      obtain ⟨rfl, rfl, rfl⟩ : _ = acc' ∧ ds1 = ds' ∧ ts1 = ts' := by simpa using h
      rw [runSection]
      simp only [optionsPass_append junk hop hne]
  | StateNone =>
    rw [runSection] at h
    obtain ⟨rfl, rfl, rfl⟩ : acc = acc' ∧ ds = ds' ∧ ts = ts' := by simpa using h
    rfl

theorem boundaryLoop_cont_ne_nil {st : State} {ts : List Tok} {st' ts'}
    (h : boundaryLoop st ts = BoundaryStep.cont st' ts') : ts ≠ [] := by
  rintro rfl
  simp [boundaryLoop] at h

theorem boundaryLoop_done_true_ne_nil {st : State} {ts : List Tok} {rest}
    (h : boundaryLoop st ts = BoundaryStep.done true rest) : ts ≠ [] := by
  rintro rfl
  rw [boundaryLoop] at h
  exact absurd h (by simp)

theorem boundaryLoop_append_done : ∀ {st : State} {ts : List Tok} {rest} (junk : List Tok),
    boundaryLoop st ts = BoundaryStep.done true rest →
    boundaryLoop st (ts ++ junk) = BoundaryStep.done true (rest ++ junk) := by
  intro st ts
  induction ts generalizing st with
  | nil =>
    intro rest junk h
    rw [boundaryLoop] at h
    exact absurd h (by simp)
  | cons t rest0 ih =>
    intro rest junk h
    cases t with
    | colon =>
      rw [boundaryLoop] at h
      rw [List.cons_append, boundaryLoop]
      by_cases hn : State.next st = State.StateNone
      · rw [if_pos hn] at h
        obtain ⟨-, rfl⟩ : True ∧ rest0 = rest := by simpa using h
        rw [if_pos hn]
      · rw [if_neg hn] at h
        rw [if_neg hn]
        exact ih junk h
    | modSep =>
      rw [boundaryLoop] at h
      rw [List.cons_append, boundaryLoop]
      by_cases hn : State.next (State.next st) = State.StateNone
      · rw [if_pos hn] at h
        obtain ⟨-, rfl⟩ : True ∧ rest0 = rest := by simpa using h
        rw [if_pos hn]
      · rw [if_neg hn] at h
        rw [if_neg hn]
        exact ih junk h
    | comma => simp only [boundaryLoop] at h; exact absurd h (by simp)
    | lparen => simp only [boundaryLoop] at h; exact absurd h (by simp)
    | rparen => simp only [boundaryLoop] at h; exact absurd h (by simp)
    | str s style => simp only [boundaryLoop] at h; exact absurd h (by simp)
    | exprTok e => simp only [boundaryLoop] at h; exact absurd h (by simp)

theorem boundaryLoop_append_cont : ∀ {st : State} {ts : List Tok} {st' ts'}
    (junk : List Tok), boundaryLoop st ts = BoundaryStep.cont st' ts' →
    boundaryLoop st (ts ++ junk) = BoundaryStep.cont st' (ts' ++ junk) := by
  intro st ts
  induction ts generalizing st with
  | nil =>
    intro st' ts' junk h
    rw [boundaryLoop] at h
    exact absurd h (by simp)
  | cons t rest0 ih =>
    intro st' ts' junk h
    cases t with
    | colon =>
      rw [boundaryLoop] at h
      rw [List.cons_append, boundaryLoop]
      by_cases hn : State.next st = State.StateNone
      · rw [if_pos hn] at h; exact absurd h (by simp)
      · rw [if_neg hn] at h
        rw [if_neg hn]
        exact ih junk h
    | modSep =>
      rw [boundaryLoop] at h
      rw [List.cons_append, boundaryLoop]
      by_cases hn : State.next (State.next st) = State.StateNone
      · rw [if_pos hn] at h; exact absurd h (by simp)
      · rw [if_neg hn] at h
        rw [if_neg hn]
        exact ih junk h
    | comma =>
      simp only [boundaryLoop] at h
      obtain ⟨rfl, rfl⟩ : st = st' ∧ Tok.comma :: rest0 = ts' := by simpa using h
      simp only [List.cons_append, boundaryLoop]
      rfl
    | lparen =>
      simp only [boundaryLoop] at h
      obtain ⟨rfl, rfl⟩ : st = st' ∧ Tok.lparen :: rest0 = ts' := by simpa using h
      simp only [List.cons_append, boundaryLoop]
      rfl
    | rparen =>
      simp only [boundaryLoop] at h
      obtain ⟨rfl, rfl⟩ : st = st' ∧ Tok.rparen :: rest0 = ts' := by simpa using h
      simp only [List.cons_append, boundaryLoop]
      rfl
    | str s style =>
      simp only [boundaryLoop] at h
      obtain ⟨rfl, rfl⟩ : st = st' ∧ Tok.str s style :: rest0 = ts' := by simpa using h
      simp only [List.cons_append, boundaryLoop]
      rfl
    | exprTok e =>
      simp only [boundaryLoop] at h
      obtain ⟨rfl, rfl⟩ : st = st' ∧ Tok.exprTok e :: rest0 = ts' := by simpa using h
      simp only [List.cons_append, boundaryLoop]
      rfl

theorem statementLoopF_append : ∀ {m : Nat} {n st ts acc ds} (junk : List Tok), m ≤ n →
    (statementLoopF m st ts acc ds).endedByBoundary = true →
    statementLoopF n st (ts ++ junk) acc ds = statementLoopF m st ts acc ds := by
  intro m
  induction m with
  | zero => intro n st ts acc ds junk _ hend; simp [statementLoopF] at hend
  | succ m' ih =>
    intro n st ts acc ds junk hmn hend
    obtain ⟨n', rfl⟩ : ∃ n', n = n' + 1 := ⟨n - 1, by omega⟩
    obtain ⟨out, hout⟩ : ∃ out, statementLoopF (m' + 1) st ts acc ds = out := ⟨_, rfl⟩
    rw [hout] at hend ⊢
    rw [statementLoopF] at hout
    rw [statementLoopF]
    split at hout
    · rename_i r acc' ds' hrs
      subst hout
      simp at hend
    · rename_i acc' ds' ts' hrs
      split at hout
      · rename_i b rest hb
        subst hout
        rw [finishDirective_ended] at hend
        subst hend
        have hts' : ts' ≠ [] := boundaryLoop_done_true_ne_nil hb
        simp only [runSection_append junk hrs hts', boundaryLoop_append_done junk hb]
      · rename_i st2 ts'' hb
        by_cases hst : st = State.StateNone
        · rw [if_pos hst] at hout
          subst hout
          simp at hend
        · rw [if_neg hst] at hout
          subst hout
          simp only [consVisit] at hend
          have hts' : ts' ≠ [] := boundaryLoop_cont_ne_nil hb
          simp only [runSection_append junk hrs hts', boundaryLoop_append_cont junk hb]
          rw [if_neg hst]
          rw [ih junk (by omega) hend]

/-- Claim C10 (confirmed): when a run ends by consuming a terminating
boundary token (a single boundary advancing to the terminal state, or a
double boundary advancing two steps to it), every token after that
boundary is ignored — appending arbitrary tokens leaves the whole
outcome (directive, diagnostics and all ghost observations) unchanged. -/
theorem claim_C10 (ts junk : List Tok)
    (h : (expand_asm ts).endedByBoundary = true) :
    expand_asm (ts ++ junk) = expand_asm ts := by
  exact statementLoopF_append junk (by simp [List.length_append]) h

theorem claim_C10_witness :
    (expand_asm [Tok.str "a" 0, Tok.modSep, Tok.modSep, Tok.colon]).endedByBoundary
      = true ∧
    expand_asm ([Tok.str "a" 0, Tok.modSep, Tok.modSep, Tok.colon] ++
        [Tok.str "junk" 0, Tok.lparen]) =
      expand_asm [Tok.str "a" 0, Tok.modSep, Tok.modSep, Tok.colon] :=
  ⟨by decide, claim_C10 [Tok.str "a" 0, Tok.modSep, Tok.modSep, Tok.colon]
    [Tok.str "junk" 0, Tok.lparen] (by decide)⟩

/-! ## Claim C1: a double boundary is two single boundaries -/

theorem replaceModSep_length : ∀ ts : List Tok, ts.length ≤ (replaceModSep ts).length := by
  intro ts
  induction ts with
  | nil => simp [replaceModSep]
  | cons t rest ih => cases t <;> simp [replaceModSep] <;> omega

theorem isSectionEnd_replace (ts : List Tok) :
    isSectionEnd (replaceModSep ts) = isSectionEnd ts := by
  cases ts with
  | nil => rfl
  | cons t rest => cases t <;> rfl

theorem parse_str_replace (ts : List Tok) :
    parse_str (replaceModSep ts) =
      Option.map (fun p => (p.1, replaceModSep p.2)) (parse_str ts) := by
  cases ts with
  | nil => rfl
  | cons t rest => cases t <;> rfl

theorem parse_expr_replace (ts : List Tok) :
    parse_expr (replaceModSep ts) =
      Option.map (fun p => (p.1, replaceModSep p.2)) (parse_expr ts) := by
  cases ts with
  | nil => rfl
  | cons t rest => cases t <;> rfl

theorem expect_replace {t : Tok} (ht : t = Tok.lparen ∨ t = Tok.rparen) (ts : List Tok) :
    expect t (replaceModSep ts) = Option.map replaceModSep (expect t ts) := by
  rcases ht with rfl | rfl <;>
    (cases ts with
     | nil => rfl
     | cons x rest => cases x <;> rfl)

theorem eatComma_replace (ts : List Tok) :
    eatComma (replaceModSep ts) = replaceModSep (eatComma ts) := by
  cases ts with
  | nil => rfl
  | cons t rest => cases t <;> rfl

theorem optionsComma_replace (ts : List Tok) :
    optionsComma (replaceModSep ts) = replaceModSep (optionsComma ts) := by
  cases ts with
  | nil => rfl
  | cons t rest => cases t <;> rfl

theorem outputsLoopF_replace : ∀ {fuel : Nat} {ts outs ds},
    outputsLoopF fuel (replaceModSep ts) outs ds =
      Except.map (fun x => (x.1, x.2.1, replaceModSep x.2.2)) (outputsLoopF fuel ts outs ds) := by
  intro fuel
  induction fuel with
  | zero => intro ts outs ds; rfl
  | succ n ih =>
    intro ts outs ds
    obtain ⟨res, hres⟩ : ∃ res, outputsLoopF (n + 1) ts outs ds = res := ⟨_, rfl⟩
    rw [hres]
    rw [outputsLoopF] at hres
    rw [outputsLoopF]
    by_cases hse : isSectionEnd ts = true
    · rw [if_pos hse] at hres
      subst hres
      rw [if_pos (by rw [isSectionEnd_replace]; exact hse)]
      rfl
    · rw [if_neg hse] at hres
      rw [if_neg (by rw [isSectionEnd_replace]; exact hse)]
      have hif : (if outs.length ≠ 0 then eatComma (replaceModSep ts) else replaceModSep ts)
          = replaceModSep (if outs.length ≠ 0 then eatComma ts else ts) := by
        split
        · exact eatComma_replace ts
        · rfl
      rw [hif]
      generalize (if outs.length ≠ 0 then eatComma ts else ts) = ts1 at hres ⊢
      split at hres
      · rename_i hps
        subst hres
        simp only [parse_str_replace, hps, Option.map_none']
        rfl
      · rename_i constraint _style ts2 hps
        split at hres
        · rename_i hlp
          subst hres
          simp only [parse_str_replace, hps, Option.map_some',
            expect_replace (Or.inl rfl), hlp, Option.map_none']
          rfl
        · rename_i ts3 hlp
          split at hres
          · rename_i hpe
            subst hres
            simp only [parse_str_replace, hps, Option.map_some',
              expect_replace (Or.inl rfl), hlp, parse_expr_replace, hpe, Option.map_none']
            rfl
          · rename_i out ts4 hpe
            split at hres
            · rename_i hrp
              subst hres
              simp only [parse_str_replace, hps, Option.map_some',
                expect_replace (Or.inl rfl), hlp, parse_expr_replace, hpe,
                expect_replace (Or.inr rfl), hrp, Option.map_none']
              rfl
            · rename_i ts5 hrp
              subst hres
              simp only [parse_str_replace, hps, Option.map_some',
                expect_replace (Or.inl rfl), hlp, parse_expr_replace, hpe,
                expect_replace (Or.inr rfl), hrp]
              exact ih

theorem inputsLoopF_replace : ∀ {fuel : Nat} {ts ins ds},
    inputsLoopF fuel (replaceModSep ts) ins ds =
      Except.map (fun x => (x.1, x.2.1, replaceModSep x.2.2)) (inputsLoopF fuel ts ins ds) := by
  intro fuel
  induction fuel with
  | zero => intro ts ins ds; rfl
  | succ n ih =>
    intro ts ins ds
    obtain ⟨res, hres⟩ : ∃ res, inputsLoopF (n + 1) ts ins ds = res := ⟨_, rfl⟩
    rw [hres]
    rw [inputsLoopF] at hres
    rw [inputsLoopF]
    by_cases hse : isSectionEnd ts = true
    · rw [if_pos hse] at hres
      subst hres
      rw [if_pos (by rw [isSectionEnd_replace]; exact hse)]
      rfl
    · rw [if_neg hse] at hres
      rw [if_neg (by rw [isSectionEnd_replace]; exact hse)]
      have hif : (if ins.length ≠ 0 then eatComma (replaceModSep ts) else replaceModSep ts)
          = replaceModSep (if ins.length ≠ 0 then eatComma ts else ts) := by
        split
        · exact eatComma_replace ts
        · rfl
      rw [hif]
      generalize (if ins.length ≠ 0 then eatComma ts else ts) = ts1 at hres ⊢
      split at hres
      · rename_i hps
        subst hres
        simp only [parse_str_replace, hps, Option.map_none']
        rfl
      · rename_i constraint _style ts2 hps
        split at hres
        · rename_i hlp
          subst hres
          simp only [parse_str_replace, hps, Option.map_some',
            expect_replace (Or.inl rfl), hlp, Option.map_none']
          rfl
        · rename_i ts3 hlp
          split at hres
          · rename_i hpe
            subst hres
            simp only [parse_str_replace, hps, Option.map_some',
              expect_replace (Or.inl rfl), hlp, parse_expr_replace, hpe, Option.map_none']
            rfl
          · rename_i inp ts4 hpe
            split at hres
            · rename_i hrp
              subst hres
              simp only [parse_str_replace, hps, Option.map_some',
                expect_replace (Or.inl rfl), hlp, parse_expr_replace, hpe,
                expect_replace (Or.inr rfl), hrp, Option.map_none']
              rfl
            · rename_i ts5 hrp
              subst hres
              simp only [parse_str_replace, hps, Option.map_some',
                expect_replace (Or.inl rfl), hlp, parse_expr_replace, hpe,
                expect_replace (Or.inr rfl), hrp]
              exact ih

theorem clobbersLoopF_replace : ∀ {fuel : Nat} {ts clobs ds},
    clobbersLoopF fuel (replaceModSep ts) clobs ds =
      Except.map (fun x => (x.1, x.2.1, replaceModSep x.2.2))
        (clobbersLoopF fuel ts clobs ds) := by
  intro fuel
  induction fuel with
  | zero => intro ts clobs ds; rfl
  | succ n ih =>
    intro ts clobs ds
    obtain ⟨res, hres⟩ : ∃ res, clobbersLoopF (n + 1) ts clobs ds = res := ⟨_, rfl⟩
    rw [hres]
    rw [clobbersLoopF] at hres
    rw [clobbersLoopF]
    by_cases hse : isSectionEnd ts = true
    · rw [if_pos hse] at hres
      subst hres
      rw [if_pos (by rw [isSectionEnd_replace]; exact hse)]
      rfl
    · rw [if_neg hse] at hres
      rw [if_neg (by rw [isSectionEnd_replace]; exact hse)]
      have hif : (if clobs.length ≠ 0 then eatComma (replaceModSep ts) else replaceModSep ts)
          = replaceModSep (if clobs.length ≠ 0 then eatComma ts else ts) := by
        split
        · exact eatComma_replace ts
        · rfl
      rw [hif]
      generalize (if clobs.length ≠ 0 then eatComma ts else ts) = ts1 at hres ⊢
      split at hres
      · rename_i hps
        subst hres
        simp only [parse_str_replace, hps, Option.map_none']
        rfl
      · rename_i s _style ts2 hps
        subst hres
        simp only [parse_str_replace, hps, Option.map_some']
        exact ih

theorem optionsPass_replace (ts : List Tok) (fl : Flags) (ds : List Diag) :
    optionsPass (replaceModSep ts) fl ds =
      Except.map (fun x => (x.1, x.2.1, replaceModSep x.2.2)) (optionsPass ts fl ds) := by
  obtain ⟨res, hres⟩ : ∃ res, optionsPass ts fl ds = res := ⟨_, rfl⟩
  rw [hres]
  rw [optionsPass] at hres
  rw [optionsPass]
  split at hres
  · rename_i hps
    subst hres
    simp only [parse_str_replace, hps, Option.map_none']
    rfl
  · rename_i keyword _style ts1 hps
    subst hres
    simp only [parse_str_replace, hps, Option.map_some', optionsComma_replace]
    rfl

/-- Mapping a token-list transformation over a section outcome. -/
def mapSectionToks (f : List Tok → List Tok) : SectionOut → SectionOut
  | SectionOut.ok acc ds ts => SectionOut.ok acc ds (f ts)
  | SectionOut.stop r acc ds => SectionOut.stop r acc ds

theorem runSection_replace (st : State) (ts : List Tok) (acc : Acc) (ds : List Diag) :
    runSection st (replaceModSep ts) acc ds =
      mapSectionToks replaceModSep (runSection st ts acc ds) := by
  obtain ⟨res, hres⟩ : ∃ res, runSection st ts acc ds = res := ⟨_, rfl⟩
  rw [hres]
  cases st with
  | Asm =>
    rw [runSection] at hres
    rw [runSection]
    split at hres <;> rename_i hpe
    · subst hres
      simp only [parse_expr_replace, hpe, Option.map_none']
      rfl
    · rename_i ts1
      subst hres
      simp only [parse_expr_replace, hpe, Option.map_some']
      rfl
    · rename_i hother
      subst hres
      simp only [parse_expr_replace, hpe, Option.map_some']
      rfl
  | Outputs =>
    rw [runSection] at hres
    rw [runSection]
    have hrw : outputsLoop (replaceModSep ts) acc.outputs ds =
        Except.map (fun x => (x.1, x.2.1, replaceModSep x.2.2))
          (outputsLoop ts acc.outputs ds) := by
      rw [outputsLoop, outputsLoop, outputsLoopF_replace,
        outputsLoopF_irrel (Nat.lt_succ_of_le (replaceModSep_length ts)) (Nat.lt_succ_self _)]
    split at hres <;> rename_i hol
    · subst hres
      simp only [hrw, hol]
      rfl
    · rename_i outs ds1 ts1
      subst hres
      simp only [hrw, hol]
      rfl
  | Inputs =>
    rw [runSection] at hres
    rw [runSection]
    have hrw : inputsLoop (replaceModSep ts) acc.inputs ds =
        Except.map (fun x => (x.1, x.2.1, replaceModSep x.2.2))
          (inputsLoop ts acc.inputs ds) := by
      rw [inputsLoop, inputsLoop, inputsLoopF_replace,
        inputsLoopF_irrel (Nat.lt_succ_of_le (replaceModSep_length ts)) (Nat.lt_succ_self _)]
    split at hres <;> rename_i hol
    · subst hres
      simp only [hrw, hol]
      rfl
    · rename_i ins ds1 ts1
      subst hres
      simp only [hrw, hol]
      rfl
  | Clobbers =>
    rw [runSection] at hres
    rw [runSection]
    have hrw : clobbersLoop (replaceModSep ts) acc.clobs ds =
        Except.map (fun x => (x.1, x.2.1, replaceModSep x.2.2))
          (clobbersLoop ts acc.clobs ds) := by
      rw [clobbersLoop, clobbersLoop, clobbersLoopF_replace,
        clobbersLoopF_irrel (Nat.lt_succ_of_le (replaceModSep_length ts)) (Nat.lt_succ_self _)]
    split at hres <;> rename_i hol
    · subst hres
      simp only [hrw, hol]
      rfl
    · rename_i clobs ds1 ts1
      subst hres
      simp only [hrw, hol]
      rfl
  | Options =>
    rw [runSection] at hres
    rw [runSection]
    split at hres <;> rename_i hop
    · subst hres
      simp only [optionsPass_replace, hop]
      rfl
    · rename_i fl ds1 ts1
      subst hres
      simp only [optionsPass_replace, hop]
      rfl
  | StateNone =>
    rw [runSection] at hres
    subst hres
    rfl

theorem next_eq_none {st : State} (h : State.next st = State.StateNone) :
    State.next (State.next st) = State.StateNone := by
  rw [h]
  rfl

theorem boundaryLoop_replace_done : ∀ {st : State} {ts : List Tok} {b rest}
    (h : boundaryLoop st ts = BoundaryStep.done b rest),
    ∃ rest2, boundaryLoop st (replaceModSep ts) = BoundaryStep.done b rest2 := by
  intro st ts
  induction ts generalizing st with
  | nil =>
    intro b rest h
    rw [boundaryLoop] at h
    obtain ⟨rfl, -⟩ : false = b ∧ [] = rest := by simpa using h
    exact ⟨[], rfl⟩
  | cons t rest0 ih =>
    intro b rest h
    cases t with
    | colon =>
      rw [boundaryLoop] at h
      simp only [replaceModSep]
      rw [boundaryLoop]
      by_cases hn : State.next st = State.StateNone
      · rw [if_pos hn] at h
        obtain ⟨rfl, -⟩ : true = b ∧ rest0 = rest := by simpa using h
        rw [if_pos hn]
        exact ⟨replaceModSep rest0, rfl⟩
      · rw [if_neg hn] at h
        rw [if_neg hn]
        exact ih h
    | modSep =>
      rw [boundaryLoop] at h
      rw [replaceModSep, boundaryLoop]
      by_cases h2 : State.next (State.next st) = State.StateNone
      · rw [if_pos h2] at h
        obtain ⟨rfl, -⟩ : true = b ∧ rest0 = rest := by simpa using h
        by_cases h1 : State.next st = State.StateNone
        · rw [if_pos h1]
          exact ⟨Tok.colon :: replaceModSep rest0, rfl⟩
        · rw [if_neg h1, boundaryLoop, if_pos h2]
          exact ⟨replaceModSep rest0, rfl⟩
      · rw [if_neg h2] at h
        have h1 : State.next st ≠ State.StateNone := fun he => h2 (next_eq_none he)
        rw [if_neg h1, boundaryLoop, if_neg h2]
        exact ih h
    | comma =>
      simp only [boundaryLoop] at h
      exact absurd h (by simp)
    | lparen =>
      simp only [boundaryLoop] at h
      exact absurd h (by simp)
    | rparen =>
      simp only [boundaryLoop] at h
      exact absurd h (by simp)
    | str s style =>
      simp only [boundaryLoop] at h
      exact absurd h (by simp)
    | exprTok e =>
      simp only [boundaryLoop] at h
      exact absurd h (by simp)

theorem boundaryLoop_replace_cont : ∀ {st : State} {ts : List Tok} {st' ts'}
    (h : boundaryLoop st ts = BoundaryStep.cont st' ts'),
    boundaryLoop st (replaceModSep ts) = BoundaryStep.cont st' (replaceModSep ts') := by
  intro st ts
  induction ts generalizing st with
  | nil =>
    intro st' ts' h
    rw [boundaryLoop] at h
    exact absurd h (by simp)
  | cons t rest0 ih =>
    intro st' ts' h
    cases t with
    | colon =>
      rw [boundaryLoop] at h
      simp only [replaceModSep]
      rw [boundaryLoop]
      by_cases hn : State.next st = State.StateNone
      · rw [if_pos hn] at h; exact absurd h (by simp)
      · rw [if_neg hn] at h
        rw [if_neg hn]
        exact ih h
    | modSep =>
      rw [boundaryLoop] at h
      rw [replaceModSep, boundaryLoop]
      by_cases h2 : State.next (State.next st) = State.StateNone
      · rw [if_pos h2] at h; exact absurd h (by simp)
      · rw [if_neg h2] at h
        have h1 : State.next st ≠ State.StateNone := fun he => h2 (next_eq_none he)
        rw [if_neg h1, boundaryLoop, if_neg h2]
        exact ih h
    | comma =>
      simp only [boundaryLoop] at h
      obtain ⟨rfl, rfl⟩ : st = st' ∧ Tok.comma :: rest0 = ts' := by simpa using h
      rfl
    | lparen =>
      simp only [boundaryLoop] at h
      obtain ⟨rfl, rfl⟩ : st = st' ∧ Tok.lparen :: rest0 = ts' := by simpa using h
      rfl
    | rparen =>
      simp only [boundaryLoop] at h
      obtain ⟨rfl, rfl⟩ : st = st' ∧ Tok.rparen :: rest0 = ts' := by simpa using h
      rfl
    | str s style =>
      simp only [boundaryLoop] at h
      obtain ⟨rfl, rfl⟩ : st = st' ∧ Tok.str s style :: rest0 = ts' := by simpa using h
      rfl
    | exprTok e =>
      simp only [boundaryLoop] at h
      obtain ⟨rfl, rfl⟩ : st = st' ∧ Tok.exprTok e :: rest0 = ts' := by simpa using h
      rfl

theorem statementLoopF_replace : ∀ {fuel : Nat} {st ts acc ds},
    statementLoopF fuel st (replaceModSep ts) acc ds = statementLoopF fuel st ts acc ds := by
  intro fuel
  induction fuel with
  | zero => intro st ts acc ds; rfl
  | succ n ih =>
    intro st ts acc ds
    obtain ⟨res, hres⟩ : ∃ res, statementLoopF (n + 1) st ts acc ds = res := ⟨_, rfl⟩
    rw [hres]
    rw [statementLoopF] at hres
    rw [statementLoopF]
    split at hres
    · rename_i r acc' ds' hrs
      subst hres
      simp only [runSection_replace, hrs, mapSectionToks]
    · rename_i acc' ds' ts' hrs
      split at hres
      · rename_i b rest hb
        subst hres
        obtain ⟨rest2, hb2⟩ := boundaryLoop_replace_done hb
        simp only [runSection_replace, hrs, mapSectionToks, hb2]
      · rename_i st2 ts'' hb
        subst hres
        have hb2 := boundaryLoop_replace_cont hb
        simp only [runSection_replace, hrs, mapSectionToks, hb2]
        by_cases hst : st = State.StateNone
        · rw [if_pos hst, if_pos hst]
        · rw [if_neg hst, if_neg hst]
          rw [ih]

/-- Claim C1 (confirmed): a `::` token behaves exactly as two `:` tokens
in sequence — replacing every `::` by `:` `:` leaves the entire outcome
of `expand_asm` (directive, diagnostics and ghost observations)
unchanged, on every token stream.  In particular a double boundary right
after the Clobbers section's content terminates parsing with the same
result as an explicit empty Options section written `:` `:`. -/
theorem claim_C1 :
    (∀ ts : List Tok, expand_asm (replaceModSep ts) = expand_asm ts) ∧
    expand_asm [Tok.str "a" 0, Tok.colon, Tok.colon, Tok.colon, Tok.str "eax" 0,
        Tok.modSep] =
      expand_asm [Tok.str "a" 0, Tok.colon, Tok.colon, Tok.colon, Tok.str "eax" 0,
        Tok.colon, Tok.colon] := by
  have hmain : ∀ ts : List Tok, expand_asm (replaceModSep ts) = expand_asm ts := by
    intro ts
    rw [expand_asm, expand_asm, statementLoop, statementLoop, statementLoopF_replace,
      statementLoopF_irrel (Nat.lt_succ_of_le (replaceModSep_length ts)) (Nat.lt_succ_self _)]
  refine ⟨hmain, ?_⟩
  have h := hmain [Tok.str "a" 0, Tok.colon, Tok.colon, Tok.colon, Tok.str "eax" 0,
    Tok.modSep]
  exact h.symm

end AsmExpand
